import Mathlib

/-!
Verification of the NationStates decision pipeline (main.py, stats_tracker.py,
analytics.py): a shallow embedding of the transport layer (`ns_request`), the
decision engine (`choose_option`), the decision cycle (`run_once`), the NDJSON
storage layer (`save_stats` / `load_all_stats` / `load_decisions`) and the
analytics reducer (`analyze_decisions`), together with theorems settling the
specification's claims about them.

Machine conventions: Python strings are Lean `String` / `List Char`; Python
numbers appearing in records are modelled as integers; fallible Python code
(code that can raise) is modelled with `Option` / `Except`, where `none` /
`.error` stands for an uncaught exception reaching the caller.
-/

/-- Modelled from the spec: the storage format is "newline-delimited JSON, one
object per line, UTF-8" written by the Python standard library `json` module
(not part of this repository's sources).  A JSON value as the pipeline's
records use it: numbers are modelled as integers (the `timestamp` and metric
fields), strings as lists of Unicode scalar values. -/
inductive Json where
  | null
  | bool (b : Bool)
  | num (n : Int)
  | str (s : List Char)
  | arr (items : List Json)
  | obj (fields : List (List Char × Json))

/-- Python truthiness of a JSON-shaped value (`if stats:` in `save_stats`). -/
def jtruthy : Json → Bool
  | .null => false
  | .bool b => b
  | .num n => n != 0
  | .str s => !s.isEmpty
  | .arr items => !items.isEmpty
  | .obj fields => !fields.isEmpty

/-- Lower-case hexadecimal digit character, as Python's `"\u%04x"` formatting. -/
def hexCh : Nat → Char
  | 0 => '0' | 1 => '1' | 2 => '2' | 3 => '3' | 4 => '4' | 5 => '5' | 6 => '6'
  | 7 => '7' | 8 => '8' | 9 => '9' | 10 => 'a' | 11 => 'b' | 12 => 'c' | 13 => 'd'
  | 14 => 'e' | _ => 'f'

/-- A `\uXXXX` escape for a code unit below 0x10000. -/
def uEsc4 (n : Nat) : List Char :=
  ['\\', 'u', hexCh (n / 4096 % 16), hexCh (n / 256 % 16), hexCh (n / 16 % 16),
   hexCh (n % 16)]

/-- Modelled from the spec: `json.dumps` escaping of one character with the
default `ensure_ascii=True` — short escapes for the usual controls, a literal
for printable ASCII, `\uXXXX` otherwise, with a surrogate pair above 0xFFFF. -/
def escCh (c : Char) : List Char :=
  if c = '"' then ['\\', '"']
  else if c = '\\' then ['\\', '\\']
  else if c = '\n' then ['\\', 'n']
  else if c = '\r' then ['\\', 'r']
  else if c = '\t' then ['\\', 't']
  else if c.toNat = 8 then ['\\', 'b']
  else if c.toNat = 12 then ['\\', 'f']
  else if 32 ≤ c.toNat ∧ c.toNat ≤ 126 then [c]
  else if c.toNat < 65536 then uEsc4 c.toNat
  else uEsc4 (55296 + (c.toNat - 65536) / 1024) ++ uEsc4 (56320 + (c.toNat - 65536) % 1024)

/-- Escape a whole string body. -/
def jescape : List Char → List Char
  | [] => []
  | c :: cs => escCh c ++ jescape cs

/-- Decimal digit character for `n < 10`. -/
def digitCh : Nat → Char
  | 0 => '0' | 1 => '1' | 2 => '2' | 3 => '3' | 4 => '4'
  | 5 => '5' | 6 => '6' | 7 => '7' | 8 => '8' | _ => '9'

/-- Decimal digit characters of a natural number, most significant first. -/
def natChars (n : Nat) : List Char :=
  if _h : n < 10 then [digitCh n]
  else natChars (n / 10) ++ [digitCh (n % 10)]
termination_by n
decreasing_by exact Nat.div_lt_self (by omega) (by omega)

/-- Python `repr` of an integer: optional minus sign, then decimal digits. -/
def intChars (i : Int) : List Char :=
  if i < 0 then '-' :: natChars i.natAbs else natChars i.natAbs

mutual
/-- Modelled from the spec: `json.dumps` with its default separators
(`", "` between items, `": "` after a key) and `ensure_ascii=True`. -/
def jdump : Json → List Char
  | .num i => intChars i
  | .str s => '"' :: (jescape s ++ ['"'])
  | .arr items => '[' :: (jdumpItems items ++ [']'])
  | .obj fields => '\x7b' :: (jdumpFields fields ++ ['\x7d'])
  | .bool false => ['f', 'a', 'l', 's', 'e']
  | .bool true => ['t', 'r', 'u', 'e']
  | .null => ['n', 'u', 'l', 'l']
/-- Array contents: items separated by `", "`. -/
def jdumpItems : List Json → List Char
  | [] => []
  | x :: xs => jdump x ++ jdumpMoreItems xs
/-- Trailing array items, each preceded by `", "`. -/
def jdumpMoreItems : List Json → List Char
  | [] => []
  | x :: xs => ',' :: ' ' :: (jdump x ++ jdumpMoreItems xs)
/-- Object contents: `"key": value` pairs separated by `", "`. -/
def jdumpFields : List (List Char × Json) → List Char
  | [] => []
  | (k, v) :: fs => '"' :: (jescape k ++ '"' :: ':' :: ' ' :: (jdump v ++ jdumpMoreFields fs))
/-- Trailing object fields, each preceded by `", "`. -/
def jdumpMoreFields : List (List Char × Json) → List Char
  | [] => []
  | (k, v) :: fs =>
      ',' :: ' ' :: '"' :: (jescape k ++ '"' :: ':' :: ' ' :: (jdump v ++ jdumpMoreFields fs))
end

/-- JSON whitespace. -/
def jws (c : Char) : Bool := c.toNat == 32 || c.toNat == 9 || c.toNat == 10 || c.toNat == 13

/-- Drop leading whitespace. -/
def wsDrop : List Char → List Char
  | [] => []
  | c :: cs => if jws c then wsDrop cs else c :: cs

/-- ASCII decimal digit test. -/
def isDig (c : Char) : Bool := 48 ≤ c.toNat && c.toNat ≤ 57

/-- Split off the longest leading run of decimal digits. -/
def grabDigits : List Char → List Char × List Char
  | [] => ([], [])
  | c :: cs =>
      if isDig c then
        let p := grabDigits cs
        (c :: p.1, p.2)
      else ([], c :: cs)

/-- Value of one decimal digit character. -/
def digValue (c : Char) : Nat := c.toNat - 48

/-- Value of a digit run, most significant first. -/
def digitsNat (ds : List Char) : Nat := ds.foldl (fun a c => a * 10 + digValue c) 0

/-- Value of one hexadecimal digit character (either case). -/
def hexValue (c : Char) : Option Nat :=
  if 48 ≤ c.toNat ∧ c.toNat ≤ 57 then some (c.toNat - 48)
  else if 97 ≤ c.toNat ∧ c.toNat ≤ 102 then some (c.toNat - 87)
  else if 65 ≤ c.toNat ∧ c.toNat ≤ 70 then some (c.toNat - 55)
  else none

/-- Value of four hexadecimal digit characters. -/
def hexQuad (a b c d : Char) : Option Nat :=
  match hexValue a, hexValue b, hexValue c, hexValue d with
  | some x, some y, some z, some w => some (((x * 16 + y) * 16 + z) * 16 + w)
  | _, _, _, _ => none

/-- Decoded character for a short escape (`\n`, `\t`, ...). -/
def escShort : Char → Option Char
  | 'b' => some (Char.ofNat 8)
  | 'f' => some (Char.ofNat 12)
  | 't' => some '\t'
  | 'r' => some '\r'
  | 'n' => some '\n'
  | '/' => some '/'
  | '\\' => some '\\'
  | '"' => some '"'
  | _ => none

/-- Parse a JSON string body after the opening quote, undoing `escCh`,
including surrogate-pair recombination for astral characters.  Recursion is
on explicit fuel, one unit per decoded character. -/
def strBody : Nat → List Char → List Char → Option (List Char × List Char)
  | 0, _, _ => none
  | fuel + 1, acc, cs =>
    match cs with
    | [] => none
    | '"' :: rest => some (acc.reverse, rest)
    | '\\' :: 'u' :: a :: b :: c3 :: d :: rest3 =>
        (match hexQuad a b c3 d with
         | none => none
         | some n =>
           if 55296 ≤ n ∧ n ≤ 56319 then
             match rest3 with
             | c1 :: c2 :: e2 :: f2 :: g2 :: h2 :: rest4 =>
                 if c1 = '\\' ∧ c2 = 'u' then
                   match hexQuad e2 f2 g2 h2 with
                   | some m =>
                       if 56320 ≤ m ∧ m ≤ 57343 then
                         strBody fuel
                           (Char.ofNat (65536 + (n - 55296) * 1024 + (m - 56320)) :: acc)
                           rest4
                       else none
                   | none => none
                 else none
             | _ => none
           else if 56320 ≤ n ∧ n ≤ 57343 then none
           else strBody fuel (Char.ofNat n :: acc) rest3)
    | '\\' :: e :: rest2 =>
        (match escShort e with
         | some c0 => strBody fuel (c0 :: acc) rest2
         | none => none)
    | '\\' :: [] => none
    | c :: rest => strBody fuel (c :: acc) rest

mutual
/-- Modelled from the spec: `json.loads` on the fragment of JSON the pipeline
writes (integer numbers); returns the parsed value and the unconsumed input,
or `none` for malformed input (a raised `json.JSONDecodeError`).  Recursion is
on explicit fuel. -/
def jparse : Nat → List Char → Option (Json × List Char)
  | 0, _ => none
  | fuel + 1, cs =>
    match wsDrop cs with
    | [] => none
    | c :: rest =>
      if c = 'n' then
        (match rest with
         | 'u' :: 'l' :: 'l' :: r2 => some (.null, r2)
         | _ => none)
      else if c = 't' then
        (match rest with
         | 'r' :: 'u' :: 'e' :: r2 => some (.bool true, r2)
         | _ => none)
      else if c = 'f' then
        (match rest with
         | 'a' :: 'l' :: 's' :: 'e' :: r2 => some (.bool false, r2)
         | _ => none)
      else if c = '"' then
        (match strBody (cs.length + 1) [] rest with
         | some (s, r2) => some (.str s, r2)
         | none => none)
      else if c = '[' then
        (match wsDrop rest with
         | [] => none
         | c2 :: r2 =>
             if c2 = ']' then some (.arr [], r2)
             else
               match jparseItems fuel (c2 :: r2) with
               | some (xs, r3) => some (.arr xs, r3)
               | none => none)
      else if c = '\x7b' then
        (match wsDrop rest with
         | [] => none
         | c2 :: r2 =>
             if c2 = '\x7d' then some (.obj [], r2)
             else
               match jparseFields fuel (c2 :: r2) with
               | some (fs, r3) => some (.obj fs, r3)
               | none => none)
      else if c = '-' then
        (match grabDigits rest with
         | ([], _) => none
         | (ds, r2) => some (.num (-(digitsNat ds : Int)), r2))
      else if isDig c then
        (match grabDigits (c :: rest) with
         | (ds, r2) => some (.num (digitsNat ds : Int), r2))
      else none
/-- Parse one or more comma-separated array items up to the closing bracket. -/
def jparseItems : Nat → List Char → Option (List Json × List Char)
  | 0, _ => none
  | fuel + 1, cs =>
    match jparse fuel cs with
    | none => none
    | some (v, r1) =>
      match wsDrop r1 with
      | [] => none
      | c :: r2 =>
          if c = ',' then
            match jparseItems fuel r2 with
            | some (vs, r3) => some (v :: vs, r3)
            | none => none
          else if c = ']' then some ([v], r2)
          else none
/-- Parse one or more `"key": value` members up to the closing brace. -/
def jparseFields : Nat → List Char → Option (List (List Char × Json) × List Char)
  | 0, _ => none
  | fuel + 1, cs =>
    match wsDrop cs with
    | [] => none
    | c0 :: r1 =>
      if c0 = '"' then
        match strBody (cs.length + 1) [] r1 with
        | none => none
        | some (k, r2) =>
          match wsDrop r2 with
          | [] => none
          | c1 :: r3 =>
            if c1 = ':' then
              match jparse fuel r3 with
              | none => none
              | some (v, r4) =>
                match wsDrop r4 with
                | [] => none
                | c2 :: r5 =>
                  if c2 = ',' then
                    match jparseFields fuel r5 with
                    | some (fs, r6) => some ((k, v) :: fs, r6)
                    | none => none
                  else if c2 = '\x7d' then some ([(k, v)], r5)
                  else none
            else none
      else none
end

/-- Modelled from the spec: `json.loads` of one storage line — parse a single
value and require only whitespace to remain. -/
def jloads (cs : List Char) : Option Json :=
  match jparse (cs.length + 1) cs with
  | some (v, rest) => if wsDrop rest = [] then some v else none
  | none => none

/-- A boundary where a digit run must stop: end of input or a non-digit. -/
def digBoundary : List Char → Bool
  | [] => true
  | c :: _ => !isDig c

/-- Whitespace as Python's `str.strip` removes it, restricted to the ASCII
whitespace characters. -/
def pyWs (c : Char) : Bool := c.toNat == 32 || (9 ≤ c.toNat && c.toNat ≤ 13)

/-- A line is blank when Python's `line.strip()` is falsy (`if line.strip():`
in `load_all_stats` / `load_decisions`). -/
def blankLine (l : List Char) : Bool := l.all pyWs

/-- Split file contents at newline characters, as iterating over a Python
file handle yields lines (terminators dropped; the trailing newline of the
last written line yields one final blank line, which the readers skip). -/
def splitLines : List Char → List (List Char)
  | [] => [[]]
  | c :: cs =>
      if c = '\n' then [] :: splitLines cs
      else
        match splitLines cs with
        | l :: ls => (c :: l) :: ls
        | [] => [[c]]

/-- stats_tracker.save_stats: `if stats:` append `json.dumps(stats) + "\n"`
to the log file and report True; falsy stats are not written (False). -/
def save_stats (stats : Json) (file : List Char) : Bool × List Char :=
  if jtruthy stats then (true, file ++ (jdump stats ++ ['\n'])) else (false, file)

/-- The storage-corruption outcome: a `json.loads` exception escaping the
reader (`StorageCorruption` in the spec's taxonomy). -/
inductive ReadFault where
  | corrupt

/-- The shared line-reading loop of `load_all_stats` and `load_decisions`:
skip blank lines, `json.loads` each remaining line in order; a line that
fails to parse raises (modelled as `.error`). -/
def parseLinesE : List (List Char) → Except ReadFault (List Json)
  | [] => .ok []
  | l :: ls =>
      if blankLine l then parseLinesE ls
      else
        match jloads l with
        | none => .error .corrupt
        | some j =>
            match parseLinesE ls with
            | .ok js => .ok (j :: js)
            | .error e => .error e

/-- stats_tracker.load_all_stats: `FileNotFoundError` (a missing file,
modelled as `none`) is caught and yields the empty history; otherwise every
line is read; a malformed line raises out of the function. -/
def load_all_stats (fs : Option (List Char)) : Except ReadFault (List Json) :=
  match fs with
  | none => .ok []
  | some content => parseLinesE (splitLines content)

/-- analytics.load_decisions: identical read loop over the decision log
(`choices.ndjson`); a missing file prints a message and returns `[]`. -/
def load_decisions (fs : Option (List Char)) : Except ReadFault (List Json) :=
  match fs with
  | none => .ok []
  | some content => parseLinesE (splitLines content)

/-- A sequence of `save_stats` calls against the same file. -/
def appendAll (recs : List Json) (file : List Char) : List Char :=
  recs.foldl (fun f r => (save_stats r f).2) file

/-- The file contents produced by appending each record on its own line. -/
def joinRecs : List Json → List Char
  | [] => []
  | r :: rs => jdump r ++ ('\n' :: joinRecs rs)

/-- One attempt's outcome at the transport layer: a raised
`requests.RequestException` (network failure / timeout) or an HTTP response
with its status code. -/
inductive AttemptResult where
  | netFail
  | http (status : Nat)
deriving DecidableEq

/-- Observable transport events: issuing attempt `k`, or sleeping. -/
inductive TransportEv where
  | attempt (k : Nat)
  | sleep (seconds : Nat)
deriving DecidableEq

/-- main.ns_request's loop body over `range(MAX_RETRIES)`: return the response
on status 200 (`if r.status_code == 200`); on any other outcome print a
diagnostic and, when `attempt < MAX_RETRIES - 1`, sleep `2 ** attempt` before
the next attempt.  The result is the index of the returning attempt (`none`
models the final `return None`), paired with the event trace. -/
def nsGo (oracle : Nat → AttemptResult) (maxRetries : Nat) :
    List Nat → Option Nat × List TransportEv
  | [] => (none, [])
  | k :: rest =>
      if oracle k = .http 200 then (some k, [.attempt k])
      else
        let r := nsGo oracle maxRetries rest
        if k < maxRetries - 1 then (r.1, .attempt k :: .sleep (2 ^ k) :: r.2)
        else (r.1, .attempt k :: r.2)

/-- main.ns_request: the retry loop with per-attempt outcomes supplied by an
oracle (the network); `requests.RequestException` is caught and non-200
statuses are absorbed, so the function is total - it never raises. -/
def ns_request (oracle : Nat → AttemptResult) (maxRetries : Nat) :
    Option Nat × List TransportEv :=
  nsGo oracle maxRetries (List.range maxRetries)

/-- An option of an issue, from the API XML (`<OPTION id>` with its text). -/
structure IssueOption where
  id : String
  text : String
deriving DecidableEq

/-- An issue, from the API XML (`<ISSUE>` with title, text and options). -/
structure Issue where
  title : String
  text : String
  options : List IssueOption
deriving DecidableEq

/-- A language-model response body that parsed to the constrained schema: the
integer `option_number` plus the optional `reasoning` string. -/
structure LLMPayload where
  optionNumber : Int
  reasoning : Option String
deriving DecidableEq

/-- The outcome of the Ollama HTTP call inside choose_option: a raised
`requests.RequestException` (network failure or timeout), or a response with
an HTTP status whose body either yields a schema-shaped payload (`some`) or
fails any of the parse steps (`none`, covering the caught `ValueError`,
`KeyError`, `json.JSONDecodeError` and `TypeError` paths). -/
inductive LLMOutcome where
  | reqFail
  | reply (status : Nat) (payload : Option LLMPayload)
deriving DecidableEq

/-- main.choose_option: empty option list returns `(None, "none", None)`;
otherwise the language model is consulted, its answer validated (HTTP 200,
schema parse, `1 <= num <= len(options)`), and on success the 1-indexed
option's id is returned with method `"AI"`; every failure path falls back to
`random.choice(options)` (the draw supplied by the random oracle) with method
`"random"` and no reasoning.  All exception paths are caught, so the function
is total. -/
def choose_option (logReasoning : Bool) (issue : Issue) (llm : LLMOutcome)
    (draw : Nat) : Option String × String × Option String :=
  match issue.options with
  | [] => (none, "none", none)
  | o0 :: os =>
      let n := os.length + 1
      let fallback : Option String × String × Option String :=
        (some (((o0 :: os).get ⟨draw % n, Nat.mod_lt _ (Nat.succ_pos _)⟩).id),
          "random", none)
      match llm with
      | .reqFail => fallback
      | .reply status payload =>
          if status = 200 then
            match payload with
            | some p =>
                if 1 ≤ p.optionNumber ∧ p.optionNumber ≤ (n : Int) then
                  (some (((o0 :: os).getD (p.optionNumber - 1).toNat o0).id), "AI",
                    if logReasoning then p.reasoning else none)
                else fallback
            | none => fallback
          else fallback

/-- One line of the decision log (`choice_data` in run_once). -/
structure DecisionRec where
  timestamp : Int
  issueId : String
  title : String
  text : String
  optionId : String
  chosenOptionText : String
  method : String
  reasoning : Option String
deriving DecidableEq

/-- One issue of a cycle together with its environment: the language-model
outcome, the random draw and the wall clock at decision time. -/
structure IssueEnv where
  issueId : String
  issue : Issue
  llm : LLMOutcome
  draw : Nat
  now : Int
deriving DecidableEq

/-- Observable events of one decision cycle: appending a record to the
decision log (`choices.ndjson`) or submitting an answer (with its outcome). -/
inductive CycleEv where
  | logAppend (rec1 : DecisionRec)
  | submit (issueId : String) (optionId : String) (ok : Bool)
deriving DecidableEq

/-- The per-issue body of main.run_once: choose an option; when one was
chosen, build `choice_data` (reasoning only when truthy), append it to the
log, then - unless TEST_MODE - submit via answer_issue.  Returns the records
appended and the events in program order. -/
def mkDecisionRec (env : IssueEnv) (oid method : String)
    (reasoning : Option String) : DecisionRec :=
  { timestamp := env.now, issueId := env.issueId, title := env.issue.title,
    text := env.issue.text, optionId := oid,
    chosenOptionText := ((env.issue.options.find? (fun o => o.id == oid)).map
      (fun o => o.text)).getD "",
    method := method,
    reasoning := match reasoning with
      | some r => if r = "" then none else some r
      | none => none }

def processIssue (logReasoning testMode : Bool)
    (submitOk : String → String → Bool) (env : IssueEnv) :
    List DecisionRec × List CycleEv :=
  match choose_option logReasoning env.issue env.llm env.draw with
  | (none, _, _) => ([], [])
  | (some oid, method, reasoning) =>
      let rec1 := mkDecisionRec env oid method reasoning
      if testMode then ([rec1], [.logAppend rec1])
      else ([rec1], [.logAppend rec1,
        .submit env.issueId oid (submitOk env.issueId oid)])

/-- main.run_once's loop over the fetched issues: each issue's records are
appended to the log file in order and its events happen in program order. -/
def run_once (logReasoning testMode : Bool) (submitOk : String → String → Bool) :
    List IssueEnv → List DecisionRec → List DecisionRec × List CycleEv
  | [], log0 => (log0, [])
  | e :: es, log0 =>
      let pr := processIssue logReasoning testMode submitOk e
      let r2 := run_once logReasoning testMode submitOk es (log0 ++ pr.1)
      (r2.1, pr.2 ++ r2.2)

/-- The configuration read at module load time in main.py. -/
structure Config where
  userAgent : Option String
  nation : Option String
  password : Option String
  testMode : Bool
  logReasoning : Bool
deriving DecidableEq

/-- The module-level environment reads of main.py (`os.getenv` calls). -/
def load_config (env : String → Option String) : Config :=
  { userAgent := env "USER_AGENT", nation := env "NATION",
    password := env "PASSWORD",
    testMode := ((env "TEST_MODE").getD "false").toLower == "true",
    logReasoning := ((env "LOG_REASONING").getD "false").toLower == "true" }

/-- Program startup as main.py performs it: only the environment reads above.
There is no validation step - the `Except` frame records that no
configuration error can be produced. -/
def startup (env : String → Option String) : Except String Config :=
  .ok (load_config env)

/-- `headers["User-Agent"] = USER_AGENT` in ns_request: the headers mapping
after the unconditional dict assignment (the value is the configured
identification, present or not). -/
def requestHeaders (cfg : Config) (headers : String → Option (Option String)) :
    String → Option (Option String) :=
  fun k => if k = "User-Agent" then some cfg.userAgent else headers k

/-- A decision record as the analytics reducer reads it: the `timestamp` field
when the key is present (`if 'timestamp' in d`), and the raw `method` field
(`d.get('method')`, absent when missing). -/
structure AnalyticsDecision where
  timestamp : Option Int
  method : Option String
deriving DecidableEq

/-- `d.get('method', 'unknown')` in analyze_decisions. -/
def methodOf (d : AnalyticsDecision) : String := d.method.getD "unknown"

/-- One `Counter` update: bump the key's tally, insertion-ordered. -/
def tallyAdd : List (String × Nat) → String → List (String × Nat)
  | [], k => [(k, 1)]
  | (k0, n) :: rest, k =>
      if k0 = k then (k0, n + 1) :: rest else (k0, n) :: tallyAdd rest k

/-- `Counter(d.get('method', 'unknown') for d in decisions)`. -/
def methodCounter (ds : List AnalyticsDecision) : List (String × Nat) :=
  ds.foldl (fun acc d => tallyAdd acc (methodOf d)) []

/-- Tally lookup (0 for an absent key), as `Counter` indexing behaves. -/
def countLookup : List (String × Nat) → String → Nat
  | [], _ => 0
  | (k, n) :: rest, m => if k = m then n else countLookup rest m

/-- The figures printed by analytics.analyze_decisions, as a report value. -/
structure Report where
  total : Nat
  methodStats : List (String × Nat × Rat)
  dateRangeDays : Option Int
  avgPerDay : Option Rat
  aiCount : Nat
  randomCount : Nat
deriving DecidableEq

/-- analytics.analyze_decisions: `none` models the early `return` on an empty
input ("No decisions to analyze").  Otherwise: the total; for each counted
method the printed percentage `(count / total_decisions) * 100`; the date
range in whole days between the minimum and maximum timestamp (when any are
present); the average decisions per day printed only when the range is
strictly positive; and the AI/random tallies. -/
def analyze_decisions (ds : List AnalyticsDecision) : Option Report :=
  if ds.isEmpty then none
  else
    let total := ds.length
    let counter := methodCounter ds
    let timestamps := ds.filterMap (fun d => d.timestamp)
    let dateRange : Option Int :=
      match List.min? timestamps, List.max? timestamps with
      | some mn, some mx => some ((mx - mn) / 86400)
      | _, _ => none
    some
      { total := total
        methodStats := counter.map (fun p => (p.1, p.2, ((p.2 : Rat) / (total : Rat)) * 100))
        dateRangeDays := dateRange
        avgPerDay :=
          match dateRange with
          | some dr => if 0 < dr then some ((total : Rat) / (dr : Rat)) else none
          | none => none
        aiCount := (ds.filter (fun d => d.method == some "AI")).length
        randomCount := (ds.filter (fun d => d.method == some "random")).length }

/-- Dict lookup on a parsed JSON object; with duplicate keys the later entry
wins, as in a dict built by `json.loads`. -/
def jlookup (fields : List (List Char × Json)) (key : List Char) : Option Json :=
  fields.foldl (fun acc kv => if kv.1 = key then some kv.2 else acc) none

/-- The analytics view of one parsed log line. -/
def decisionOfJson (j : Json) : AnalyticsDecision :=
  match j with
  | .obj fields =>
      { timestamp := (jlookup fields "timestamp".toList).bind (fun v =>
          match v with
          | .num n => some n
          | _ => none)
        method := (jlookup fields "method".toList).bind (fun v =>
          match v with
          | .str s => some (String.mk s)
          | _ => none) }
  | _ => { timestamp := none, method := none }

/-- The observable outcome of the analytics entry point. -/
inductive AnalyticsOut where
  | failed
  | noDecisions
  | report (r : Report)
deriving DecidableEq

/-- analytics.main: load the decision log (an uncaught read error aborts);
with no decisions print "No decisions found to analyze."; otherwise produce
the analysis. -/
def analytics_main (fs : Option (List Char)) : AnalyticsOut :=
  match load_decisions fs with
  | .error _ => .failed
  | .ok js =>
      if js.isEmpty then .noDecisions
      else
        match analyze_decisions (js.map decisionOfJson) with
        | some r => .report r
        | none => .noDecisions

theorem wsDrop_not {c : Char} (t : List Char) (h : jws c = false) :
    wsDrop (c :: t) = c :: t := by
  simp [wsDrop, h]

theorem wsDrop_ws {lead : List Char} (cs : List Char) (h : ∀ c ∈ lead, jws c = true) :
    wsDrop (lead ++ cs) = wsDrop cs := by
  induction lead with
  | nil => rfl
  | cons c l ih =>
      have hc : jws c = true := h c (List.mem_cons_self ..)
      simpa [wsDrop, hc] using ih (fun x hx => h x (List.mem_cons_of_mem _ hx))

theorem digitCh_toNat {d : Nat} (h : d < 10) : (digitCh d).toNat = 48 + d := by
  interval_cases d <;> rfl

theorem isDig_digitCh {d : Nat} (h : d < 10) : isDig (digitCh d) = true := by
  simp [isDig, digitCh_toNat h]; omega

theorem digValue_digitCh {d : Nat} (h : d < 10) : digValue (digitCh d) = d := by
  simp [digValue, digitCh_toNat h]

theorem natChars_unfold (n : Nat) :
    natChars n = if n < 10 then [digitCh n] else natChars (n / 10) ++ [digitCh (n % 10)] := by
  rw [natChars]
  split <;> simp

theorem natChars_digits (n : Nat) : ∀ c ∈ natChars n, isDig c = true := by
  induction n using Nat.strongRecOn with
  | _ n ih =>
    intro c hc
    rw [natChars_unfold] at hc
    by_cases h : n < 10
    · rw [if_pos h] at hc
      simp only [List.mem_singleton] at hc
      exact hc ▸ isDig_digitCh h
    · rw [if_neg h] at hc
      rcases List.mem_append.mp hc with h1 | h2
      · exact ih (n / 10) (Nat.div_lt_self (by omega) (by omega)) c h1
      · simp only [List.mem_singleton] at h2
        exact h2 ▸ isDig_digitCh (Nat.mod_lt _ (by omega))

theorem natChars_cons (n : Nat) :
    ∃ c t, natChars n = c :: t ∧ isDig c = true := by
  cases h : natChars n with
  | nil =>
      exfalso
      rw [natChars_unfold] at h
      by_cases h10 : n < 10 <;> simp [h10] at h
  | cons c t =>
      exact ⟨c, t, rfl, natChars_digits n c (h ▸ List.mem_cons_self ..)⟩

theorem digitsNat_natChars (n : Nat) : digitsNat (natChars n) = n := by
  induction n using Nat.strongRecOn with
  | _ n ih =>
    rw [natChars_unfold]
    by_cases h : n < 10
    · simp [h, digitsNat, digValue_digitCh h]
    · rw [if_neg h]
      have hrec := ih (n / 10) (Nat.div_lt_self (by omega) (by omega))
      simp only [digitsNat, List.foldl_append, List.foldl_cons, List.foldl_nil]
      simp only [digitsNat] at hrec
      rw [hrec, digValue_digitCh (Nat.mod_lt _ (by omega))]
      omega

theorem grabDigits_stop {cs : List Char} (h : digBoundary cs = true) :
    grabDigits cs = ([], cs) := by
  cases cs with
  | nil => rfl
  | cons c t =>
      simp only [digBoundary, Bool.not_eq_true'] at h
      simp [grabDigits, h]

theorem grabDigits_run (ds : List Char) (hds : ∀ c ∈ ds, isDig c = true)
    {rest : List Char} (hrest : digBoundary rest = true) :
    grabDigits (ds ++ rest) = (ds, rest) := by
  induction ds with
  | nil => simpa using grabDigits_stop hrest
  | cons c t ih =>
      have hc : isDig c = true := hds c (List.mem_cons_self ..)
      have ht := ih (fun x hx => hds x (List.mem_cons_of_mem _ hx))
      simp [grabDigits, hc, ht]

theorem isDig_facts {c : Char} (hc : isDig c = true) :
    jws c = false ∧ c ≠ 'n' ∧ c ≠ 't' ∧ c ≠ 'f' ∧ c ≠ '"' ∧ c ≠ '[' ∧
      c ≠ '\x7b' ∧ c ≠ '-' := by
  simp only [isDig, Bool.and_eq_true, decide_eq_true_eq] at hc
  refine ⟨?_, ?_, ?_, ?_, ?_, ?_, ?_, ?_⟩
  · simp only [jws, Bool.or_eq_false_iff]
    refine ⟨⟨⟨?_, ?_⟩, ?_⟩, ?_⟩ <;> (simp only [beq_eq_false_iff_ne]; omega)
  all_goals (intro h; subst h; revert hc; decide)

theorem jparse_int (i : Int) (fuel : Nat) {lead rest : List Char}
    (hlead : ∀ c ∈ lead, jws c = true) (hrest : digBoundary rest = true) :
    jparse (fuel + 1) (lead ++ (intChars i ++ rest)) = some (.num i, rest) := by
  by_cases hi : i < 0
  · have hne : intChars i ++ rest = '-' :: (natChars i.natAbs ++ rest) := by
      simp [intChars, hi]
    rw [hne]
    simp only [jparse]
    rw [wsDrop_ws _ hlead, wsDrop_not _ (by decide)]
    have hg : grabDigits (natChars i.natAbs ++ rest) = (natChars i.natAbs, rest) :=
      grabDigits_run _ (natChars_digits _) hrest
    obtain ⟨c, t, hct, hc⟩ := natChars_cons i.natAbs
    rw [hct, List.cons_append] at hg
    have hd : digitsNat (c :: t) = i.natAbs := by rw [← hct]; exact digitsNat_natChars _
    have habs : (i.natAbs : Int) = -i := by omega
    rw [hct, List.cons_append]
    simp [hg, hd, habs]
  · have hne : intChars i ++ rest = natChars i.natAbs ++ rest := by simp [intChars, hi]
    obtain ⟨c, t, hct, hc⟩ := natChars_cons i.natAbs
    obtain ⟨hws, hn, ht2, hf, hq, hbk, hbc, hm⟩ := isDig_facts hc
    rw [hne, hct, List.cons_append]
    simp only [jparse]
    rw [wsDrop_ws _ hlead, wsDrop_not _ hws]
    have hg : grabDigits (c :: (t ++ rest)) = (c :: t, rest) := by
      have h2 := grabDigits_run (natChars i.natAbs) (natChars_digits _) hrest
      rwa [hct, List.cons_append] at h2
    have hd : digitsNat (c :: t) = i.natAbs := by rw [← hct]; exact digitsNat_natChars _
    have habs : (i.natAbs : Int) = i := Int.natAbs_of_nonneg (by omega)
    simp [hn, ht2, hf, hq, hbk, hbc, hm, hc, hg, hd, habs]

theorem hexValue_hexCh {d : Nat} (h : d < 16) : hexValue (hexCh d) = some d := by
  interval_cases d <;> decide

theorem hexQuad_uEsc {n : Nat} (h : n < 65536) :
    hexQuad (hexCh (n / 4096 % 16)) (hexCh (n / 256 % 16)) (hexCh (n / 16 % 16))
      (hexCh (n % 16)) = some n := by
  have h1 := hexValue_hexCh (Nat.mod_lt (n / 4096) (show 0 < 16 by omega))
  have h2 := hexValue_hexCh (Nat.mod_lt (n / 256) (show 0 < 16 by omega))
  have h3 := hexValue_hexCh (Nat.mod_lt (n / 16) (show 0 < 16 by omega))
  have h4 := hexValue_hexCh (Nat.mod_lt n (show 0 < 16 by omega))
  simp only [hexQuad, h1, h2, h3, h4]
  congr 1
  omega

theorem char_toNat_bound (c : Char) : c.toNat < 1114112 := by
  have h := c.valid
  have he : c.toNat = c.val.toNat := rfl
  rcases h with h | h <;> omega

theorem char_toNat_not_surrogate (c : Char) :
    c.toNat < 55296 ∨ 57343 < c.toNat := by
  have h := c.valid
  have he : c.toNat = c.val.toNat := rfl
  rcases h with h | h
  · left; omega
  · right; omega

theorem strBody_esc (c : Char) (fuel : Nat) (acc rest : List Char) :
    strBody (fuel + 1) acc (escCh c ++ rest) = strBody fuel (c :: acc) rest := by
  by_cases h1 : c = '"'
  · subst h1; rfl
  by_cases h2 : c = '\\'
  · subst h2; rfl
  by_cases h3 : c = '\n'
  · subst h3; rfl
  by_cases h4 : c = '\r'
  · subst h4; rfl
  by_cases h5 : c = '\t'
  · subst h5; rfl
  by_cases h6 : c.toNat = 8
  · have he : escCh c = ['\\', 'b'] := by
      rw [escCh]; simp [h1, h2, h3, h4, h5, h6]
    have hc : Char.ofNat 8 = c := by rw [← h6, Char.ofNat_toNat]
    rw [he]
    calc strBody (fuel + 1) acc ('\\' :: 'b' :: rest)
        = strBody fuel (Char.ofNat 8 :: acc) rest := rfl
      _ = strBody fuel (c :: acc) rest := by rw [hc]
  by_cases h7 : c.toNat = 12
  · have he : escCh c = ['\\', 'f'] := by
      rw [escCh]; simp [h1, h2, h3, h4, h5, h6, h7]
    have hc : Char.ofNat 12 = c := by rw [← h7, Char.ofNat_toNat]
    rw [he]
    calc strBody (fuel + 1) acc ('\\' :: 'f' :: rest)
        = strBody fuel (Char.ofNat 12 :: acc) rest := rfl
      _ = strBody fuel (c :: acc) rest := by rw [hc]
  by_cases h8 : 32 ≤ c.toNat ∧ c.toNat ≤ 126
  · have he : escCh c = [c] := by
      rw [escCh]; simp [h1, h2, h3, h4, h5, h6, h7, h8]
    rw [he, List.singleton_append, strBody]
    simp [h1, h2]
    all_goals (intros; simp_all)
  by_cases h9 : c.toNat < 65536
  · have he : escCh c = uEsc4 c.toNat := by
      rw [escCh]; simp [h1, h2, h3, h4, h5, h6, h7, h8, h9]
    have hq := hexQuad_uEsc h9
    have hns := char_toNat_not_surrogate c
    have hn1 : ¬(55296 ≤ c.toNat ∧ c.toNat ≤ 56319) := by omega
    have hn2 : ¬(56320 ≤ c.toNat ∧ c.toNat ≤ 57343) := by omega
    rw [he]
    simp only [uEsc4, List.cons_append]
    rw [strBody]
    simp [hq, hn1, hn2, Char.ofNat_toNat]
  · have hb := char_toNat_bound c
    have he : escCh c = uEsc4 (55296 + (c.toNat - 65536) / 1024)
        ++ uEsc4 (56320 + (c.toNat - 65536) % 1024) := by
      rw [escCh]; simp [h1, h2, h3, h4, h5, h6, h7, h8, h9]
    have hq1 := hexQuad_uEsc (show 55296 + (c.toNat - 65536) / 1024 < 65536 by omega)
    have hq2 := hexQuad_uEsc (show 56320 + (c.toNat - 65536) % 1024 < 65536 by omega)
    have hr1 : 55296 ≤ 55296 + (c.toNat - 65536) / 1024 ∧
        55296 + (c.toNat - 65536) / 1024 ≤ 56319 := by omega
    have hr2 : 56320 ≤ 56320 + (c.toNat - 65536) % 1024 ∧
        56320 + (c.toNat - 65536) % 1024 ≤ 57343 := by omega
    have harg : 65536 + (55296 + (c.toNat - 65536) / 1024 - 55296) * 1024 +
        (56320 + (c.toNat - 65536) % 1024 - 56320) = c.toNat := by omega
    rw [he]
    simp only [uEsc4, List.cons_append, List.append_assoc, List.nil_append]
    have harg2 : 65536 + (c.toNat - 65536) / 1024 * 1024 + (c.toNat - 65536) % 1024
        = c.toNat := by omega
    rw [strBody]
    simp [hq1, hq2, hr1, hr2, harg, harg2, Char.ofNat_toNat]

theorem escCh_ne_nil (c : Char) : escCh c ≠ [] := by
  rw [escCh]
  split_ifs <;> simp [uEsc4]

theorem length_jescape (s : List Char) : s.length ≤ (jescape s).length := by
  induction s with
  | nil => simp [jescape]
  | cons c cs ih =>
      have h := escCh_ne_nil c
      have : 1 ≤ (escCh c).length := by
        cases hc : escCh c with
        | nil => exact absurd hc h
        | cons x xs => simp
      simp only [jescape, List.length_cons, List.length_append]
      omega

theorem strBody_jescape (s : List Char) : ∀ (fuel : Nat) (acc rest : List Char),
    s.length < fuel →
    strBody fuel acc (jescape s ++ ('"' :: rest)) = some (acc.reverse ++ s, rest) := by
  induction s with
  | nil =>
      intro fuel acc rest h
      obtain ⟨f, rfl⟩ : ∃ f, fuel = f + 1 := ⟨fuel - 1, by omega⟩
      simp [jescape, strBody]
  | cons c cs ih =>
      intro fuel acc rest h
      obtain ⟨f, rfl⟩ : ∃ f, fuel = f + 1 := ⟨fuel - 1, by omega⟩
      rw [jescape, List.append_assoc, strBody_esc,
        ih f _ _ (by simp at h; omega)]
      simp

theorem jparse_str (s : List Char) (fuel : Nat) {lead rest : List Char}
    (hlead : ∀ c ∈ lead, jws c = true) :
    jparse (fuel + 1) (lead ++ (jdump (.str s) ++ rest)) = some (.str s, rest) := by
  have hsh : jdump (.str s) ++ rest = '"' :: (jescape s ++ ('"' :: rest)) := by
    simp [jdump]
  rw [hsh]
  simp only [jparse]
  rw [wsDrop_ws _ hlead, wsDrop_not _ (by decide)]
  have hlen : s.length < (lead ++ '"' :: (jescape s ++ ('"' :: rest))).length + 1 := by
    have := length_jescape s
    simp
    omega
  simp only [jdump]
  rw [strBody_jescape s _ [] rest (by have := length_jescape s; simp; omega)]
  simp

theorem isDig_not_bracket {c : Char} (hc : isDig c = true) :
    c ≠ ']' ∧ c ≠ '\x7d' := by
  constructor <;> (intro h; subst h; revert hc; decide)


theorem jws_of_pyWs {c : Char} (h : pyWs c = false) : jws c = false := by
  simp only [pyWs, Bool.or_eq_false_iff, Bool.and_eq_false_iff, beq_eq_false_iff_ne,
    decide_eq_false_iff_not] at h
  simp only [jws, Bool.or_eq_false_iff, beq_eq_false_iff_ne]
  omega

theorem pyWs_of_digit {c : Char} (hc : isDig c = true) : pyWs c = false := by
  simp only [isDig, Bool.and_eq_true, decide_eq_true_eq] at hc
  simp only [pyWs, Bool.or_eq_false_iff, Bool.and_eq_false_iff, beq_eq_false_iff_ne,
    decide_eq_false_iff_not]
  omega

theorem jdump_head (j : Json) :
    ∃ c t, jdump j = c :: t ∧ pyWs c = false ∧ c ≠ ']' ∧ c ≠ '\x7d' := by
  cases j with
  | null => exact ⟨'n', _, rfl, by decide⟩
  | bool b =>
      cases b with
      | true => exact ⟨'t', _, rfl, by decide⟩
      | false => exact ⟨'f', _, rfl, by decide⟩
  | str s => exact ⟨'"', _, rfl, by decide⟩
  | arr items => exact ⟨'[', _, rfl, by decide⟩
  | obj fields => exact ⟨'\x7b', _, rfl, by decide⟩
  | num i =>
      by_cases hi : i < 0
      · refine ⟨'-', natChars i.natAbs, ?_, by decide⟩
        simp [jdump, intChars, hi]
      · obtain ⟨c, t, hct, hc⟩ := natChars_cons i.natAbs
        obtain ⟨hb1, hb2⟩ := isDig_not_bracket hc
        refine ⟨c, t, ?_, pyWs_of_digit hc, hb1, hb2⟩
        simp [jdump, intChars, hi, hct]

theorem jdump_ne_nil (j : Json) : jdump j ≠ [] := by
  obtain ⟨c, t, h, _⟩ := jdump_head j
  simp [h]

theorem wsDrop_jdump (j : Json) (x : List Char) :
    wsDrop (jdump j ++ x) = jdump j ++ x := by
  obtain ⟨c, t, h, hws, _⟩ := jdump_head j
  rw [h, List.cons_append, wsDrop_not _ (jws_of_pyWs hws)]

theorem jparse_null (fuel : Nat) {lead rest : List Char}
    (hlead : ∀ c ∈ lead, jws c = true) :
    jparse (fuel + 1) (lead ++ (jdump .null ++ rest)) = some (.null, rest) := by
  have h : jdump Json.null ++ rest = 'n' :: 'u' :: 'l' :: 'l' :: rest := by simp [jdump]
  rw [h]
  simp only [jparse]
  rw [wsDrop_ws _ hlead, wsDrop_not _ (by decide)]
  simp

theorem jparse_true (fuel : Nat) {lead rest : List Char}
    (hlead : ∀ c ∈ lead, jws c = true) :
    jparse (fuel + 1) (lead ++ (jdump (.bool true) ++ rest)) = some (.bool true, rest) := by
  have h : jdump (Json.bool true) ++ rest = 't' :: 'r' :: 'u' :: 'e' :: rest := by simp [jdump]
  rw [h]
  simp only [jparse]
  rw [wsDrop_ws _ hlead, wsDrop_not _ (by decide)]
  simp

theorem jparse_false (fuel : Nat) {lead rest : List Char}
    (hlead : ∀ c ∈ lead, jws c = true) :
    jparse (fuel + 1) (lead ++ (jdump (.bool false) ++ rest)) = some (.bool false, rest) := by
  have h : jdump (Json.bool false) ++ rest = 'f' :: 'a' :: 'l' :: 's' :: 'e' :: rest := by
    simp [jdump]
  rw [h]
  simp only [jparse]
  rw [wsDrop_ws _ hlead, wsDrop_not _ (by decide)]
  simp

theorem jparse_arr_nil (fuel : Nat) {lead rest : List Char}
    (hlead : ∀ c ∈ lead, jws c = true) :
    jparse (fuel + 1) (lead ++ (jdump (.arr []) ++ rest)) = some (.arr [], rest) := by
  have h : jdump (Json.arr []) ++ rest = '[' :: ']' :: rest := by simp [jdump, jdumpItems]
  rw [h]
  simp only [jparse]
  rw [wsDrop_ws _ hlead, wsDrop_not _ (by decide)]
  simp [wsDrop_not _ (by decide : jws ']' = false)]

theorem jparse_obj_nil (fuel : Nat) {lead rest : List Char}
    (hlead : ∀ c ∈ lead, jws c = true) :
    jparse (fuel + 1) (lead ++ (jdump (.obj []) ++ rest)) = some (.obj [], rest) := by
  have h : jdump (Json.obj []) ++ rest = '\x7b' :: '\x7d' :: rest := by simp [jdump, jdumpFields]
  rw [h]
  simp only [jparse]
  rw [wsDrop_ws _ hlead, wsDrop_not _ (by decide)]
  simp [wsDrop_not _ (by decide : jws '\x7d' = false)]

theorem digBoundary_bracket (l : List Char) : digBoundary (']' :: l) = true := by
  simp only [digBoundary]; decide

theorem digBoundary_brace (l : List Char) : digBoundary ('\x7d' :: l) = true := by
  simp only [digBoundary]; decide

theorem digBoundary_comma (l : List Char) : digBoundary (',' :: l) = true := by
  simp only [digBoundary]; decide

theorem jdump_len_pos (j : Json) : 1 ≤ (jdump j).length := by
  cases h : jdump j with
  | nil => exact absurd h (jdump_ne_nil j)
  | cons c t => simp

mutual

theorem rt_val : ∀ (j : Json) (fuel : Nat) (lead rest : List Char),
    (∀ c ∈ lead, jws c = true) → (jdump j).length < fuel → digBoundary rest = true →
    jparse fuel (lead ++ (jdump j ++ rest)) = some (j, rest)
  | .null, fuel, lead, rest, hlead, hf, _ => by
      cases fuel with
      | zero => exact absurd hf (Nat.not_lt_zero _)
      | succ f => exact jparse_null f hlead
  | .bool true, fuel, lead, rest, hlead, hf, _ => by
      cases fuel with
      | zero => exact absurd hf (Nat.not_lt_zero _)
      | succ f => exact jparse_true f hlead
  | .bool false, fuel, lead, rest, hlead, hf, _ => by
      cases fuel with
      | zero => exact absurd hf (Nat.not_lt_zero _)
      | succ f => exact jparse_false f hlead
  | .num i, fuel, lead, rest, hlead, hf, hrest => by
      cases fuel with
      | zero => exact absurd hf (Nat.not_lt_zero _)
      | succ f =>
          have h : jdump (Json.num i) = intChars i := by simp [jdump]
          rw [h]
          exact jparse_int i f hlead hrest
  | .str s, fuel, lead, rest, hlead, hf, _ => by
      cases fuel with
      | zero => exact absurd hf (Nat.not_lt_zero _)
      | succ f => exact jparse_str s f hlead
  | .arr [], fuel, lead, rest, hlead, hf, _ => by
      cases fuel with
      | zero => exact absurd hf (Nat.not_lt_zero _)
      | succ f => exact jparse_arr_nil f hlead
  | .arr (x :: xs), fuel, lead, rest, hlead, hf, _ => by
      cases fuel with
      | zero => exact absurd hf (Nat.not_lt_zero _)
      | succ f =>
          obtain ⟨c, t, hct, hws, hbr, hbc⟩ := jdump_head x
          have hshape : jdump (.arr (x :: xs)) ++ rest
              = '[' :: (jdumpItems (x :: xs) ++ (']' :: rest)) := by
            simp [jdump]
          have hcons : jdumpItems (x :: xs) ++ (']' :: rest)
              = c :: (t ++ (jdumpMoreItems xs ++ (']' :: rest))) := by
            rw [jdumpItems, hct]; simp
          have hlen : (jdumpItems (x :: xs)).length + 1 < f := by
            have h2 : (jdump (.arr (x :: xs))).length = (jdumpItems (x :: xs)).length + 2 := by
              simp [jdump]
            omega
          have hrec := rt_items x xs f [] rest (by simp) hlen
          simp only [List.nil_append] at hrec
          have hws2 : wsDrop (jdumpItems (x :: xs) ++ (']' :: rest))
              = c :: (t ++ (jdumpMoreItems xs ++ (']' :: rest))) := by
            rw [hcons]; exact wsDrop_not _ (jws_of_pyWs hws)
          rw [hcons] at hrec
          rw [hshape]
          simp only [jparse]
          rw [wsDrop_ws _ hlead, wsDrop_not _ (by decide)]
          simp [hws2, if_neg hbr, hrec]
  | .obj [], fuel, lead, rest, hlead, hf, _ => by
      cases fuel with
      | zero => exact absurd hf (Nat.not_lt_zero _)
      | succ f => exact jparse_obj_nil f hlead
  | .obj ((k, v) :: fs), fuel, lead, rest, hlead, hf, _ => by
      cases fuel with
      | zero => exact absurd hf (Nat.not_lt_zero _)
      | succ f =>
          have hshape : jdump (.obj ((k, v) :: fs)) ++ rest
              = '\x7b' :: (jdumpFields ((k, v) :: fs) ++ ('\x7d' :: rest)) := by
            simp [jdump]
          have hcons : jdumpFields ((k, v) :: fs) ++ ('\x7d' :: rest)
              = '"' :: (jescape k ++ ('"' :: ':' :: ' ' ::
                  (jdump v ++ (jdumpMoreFields fs ++ ('\x7d' :: rest))))) := by
            rw [jdumpFields]; simp
          have hlen : (jdumpFields ((k, v) :: fs)).length + 1 < f := by
            have h2 : (jdump (.obj ((k, v) :: fs))).length
                = (jdumpFields ((k, v) :: fs)).length + 2 := by
              simp [jdump]
            omega
          have hrec := rt_fields (k, v) fs f [] rest (by simp) hlen
          simp only [List.nil_append] at hrec
          have hws2 : wsDrop (jdumpFields ((k, v) :: fs) ++ ('\x7d' :: rest))
              = '"' :: (jescape k ++ ('"' :: ':' :: ' ' ::
                  (jdump v ++ (jdumpMoreFields fs ++ ('\x7d' :: rest))))) := by
            rw [hcons]; exact wsDrop_not _ (by decide)
          rw [hcons] at hrec
          rw [hshape]
          simp only [jparse]
          rw [wsDrop_ws _ hlead, wsDrop_not _ (by decide)]
          simp [hws2, hrec]
termination_by j _ _ _ _ _ _ => sizeOf j

theorem rt_items : ∀ (x : Json) (xs : List Json) (fuel : Nat) (lead rest : List Char),
    (∀ c ∈ lead, jws c = true) → (jdumpItems (x :: xs)).length + 1 < fuel →
    jparseItems fuel (lead ++ (jdumpItems (x :: xs) ++ (']' :: rest))) = some (x :: xs, rest)
  | x, [], fuel, lead, rest, hlead, hf => by
      cases fuel with
      | zero => exact absurd hf (Nat.not_lt_zero _)
      | succ f =>
          have hsh : jdumpItems [x] = jdump x := by
            simp [jdumpItems, jdumpMoreItems]
          rw [hsh] at hf ⊢
          have hv := rt_val x f lead (']' :: rest) hlead (by omega) (digBoundary_bracket _)
          simp only [jparseItems]
          rw [hv]
          simp [wsDrop, jws]
  | x, y :: ys, fuel, lead, rest, hlead, hf => by
      cases fuel with
      | zero => exact absurd hf (Nat.not_lt_zero _)
      | succ f =>
          have hsh : jdumpItems (x :: y :: ys) ++ (']' :: rest)
              = jdump x ++ (',' :: ' ' :: (jdumpItems (y :: ys) ++ (']' :: rest))) := by
            simp [jdumpItems, jdumpMoreItems]
          have hlen_eq : (jdumpItems (x :: y :: ys)).length
              = (jdump x).length + 2 + (jdumpItems (y :: ys)).length := by
            simp [jdumpItems, jdumpMoreItems]
            omega
          have hx1 := jdump_len_pos x
          have hv := rt_val x f lead
            (',' :: ' ' :: (jdumpItems (y :: ys) ++ (']' :: rest))) hlead
            (by omega) (digBoundary_comma _)
          have hrec := rt_items y ys f [' '] rest (by decide) (by omega)
          simp only [List.singleton_append] at hrec
          simp only [jparseItems]
          rw [hsh, hv]
          simp [wsDrop, jws, hrec]
termination_by x xs _ _ _ _ _ => sizeOf x + sizeOf xs

theorem rt_fields : ∀ (kv : List Char × Json) (fs : List (List Char × Json))
    (fuel : Nat) (lead rest : List Char),
    (∀ c ∈ lead, jws c = true) → (jdumpFields (kv :: fs)).length + 1 < fuel →
    jparseFields fuel (lead ++ (jdumpFields (kv :: fs) ++ ('\x7d' :: rest)))
      = some (kv :: fs, rest)
  | (k, v), [], fuel, lead, rest, hlead, hf => by
      cases fuel with
      | zero => exact absurd hf (Nat.not_lt_zero _)
      | succ f =>
          have hsh : jdumpFields [(k, v)] ++ ('\x7d' :: rest)
              = '"' :: (jescape k ++ ('"' :: (':' :: ' ' :: (jdump v ++ ('\x7d' :: rest))))) := by
            simp [jdumpFields, jdumpMoreFields]
          have hlen_eq : (jdumpFields [(k, v)]).length
              = (jescape k).length + 4 + (jdump v).length := by
            simp [jdumpFields, jdumpMoreFields]
            omega
          have hkl := length_jescape k
          have hv := rt_val v f [' '] ('\x7d' :: rest) (by decide)
            (by omega) (digBoundary_brace _)
          simp only [jparseFields]
          rw [wsDrop_ws _ hlead, hsh, wsDrop_not _ (by decide)]
          simp only [if_pos rfl]
          simp only [List.singleton_append] at hv
          rw [strBody_jescape k _ [] _ (by simp; omega)]
          simp [wsDrop, jws, hv]
  | (k, v), kv2 :: fs2, fuel, lead, rest, hlead, hf => by
      cases fuel with
      | zero => exact absurd hf (Nat.not_lt_zero _)
      | succ f =>
          have hsh : jdumpFields ((k, v) :: kv2 :: fs2) ++ ('\x7d' :: rest)
              = '"' :: (jescape k ++ ('"' :: (':' :: ' ' :: (jdump v ++
                  (',' :: ' ' :: (jdumpFields (kv2 :: fs2) ++ ('\x7d' :: rest))))))) := by
            obtain ⟨k2, v2⟩ := kv2
            simp [jdumpFields, jdumpMoreFields]
          have hlen_eq : (jdumpFields ((k, v) :: kv2 :: fs2)).length
              = (jescape k).length + 6 + (jdump v).length
                + (jdumpFields (kv2 :: fs2)).length := by
            obtain ⟨k2, v2⟩ := kv2
            simp [jdumpFields, jdumpMoreFields]
            omega
          have hkl := length_jescape k
          have hv1 := jdump_len_pos v
          have hv := rt_val v f [' ']
            (',' :: ' ' :: (jdumpFields (kv2 :: fs2) ++ ('\x7d' :: rest))) (by decide)
            (by omega) (digBoundary_comma _)
          have hrec := rt_fields kv2 fs2 f [' '] rest (by decide) (by omega)
          simp only [jparseFields]
          rw [wsDrop_ws _ hlead, hsh, wsDrop_not _ (by decide)]
          simp only [if_pos rfl]
          simp only [List.singleton_append] at hv hrec
          rw [strBody_jescape k _ [] _ (by simp; omega)]
          simp [wsDrop, jws, hv, hrec]
termination_by kv fs _ _ _ _ _ => sizeOf kv + sizeOf fs

end

/-- Modelled from the spec: `json.loads` of a whole line — the storage read
path (`json.loads(line)` in `load_all_stats` / `load_decisions`). -/
theorem jloads_jdump (j : Json) : jloads (jdump j) = some j := by
  have h := rt_val j ((jdump j).length + 1) [] [] (by simp) (by omega) rfl
  simp only [List.nil_append, List.append_nil] at h
  simp [jloads, h, wsDrop]

theorem hexCh_ascii : ∀ d : Nat, 32 ≤ (hexCh d).toNat ∧ (hexCh d).toNat ≤ 126
  | 0 => by decide
  | 1 => by decide
  | 2 => by decide
  | 3 => by decide
  | 4 => by decide
  | 5 => by decide
  | 6 => by decide
  | 7 => by decide
  | 8 => by decide
  | 9 => by decide
  | 10 => by decide
  | 11 => by decide
  | 12 => by decide
  | 13 => by decide
  | 14 => by decide
  | n + 15 => by
      show 32 ≤ ('f' : Char).toNat ∧ ('f' : Char).toNat ≤ 126
      decide

theorem uEsc4_ascii {n : Nat} {x : Char} (hx : x ∈ uEsc4 n) :
    32 ≤ x.toNat ∧ x.toNat ≤ 126 := by
  simp only [uEsc4, List.mem_cons, List.mem_singleton] at hx
  rcases hx with rfl | rfl | rfl | rfl | rfl | rfl | h
  · decide
  · decide
  · exact hexCh_ascii _
  · exact hexCh_ascii _
  · exact hexCh_ascii _
  · exact hexCh_ascii _
  · exact absurd h (List.not_mem_nil _)

theorem escCh_ascii {c x : Char} (hx : x ∈ escCh c) :
    32 ≤ x.toNat ∧ x.toNat ≤ 126 := by
  rw [escCh] at hx
  split_ifs at hx with h1 h2 h3 h4 h5 h6 h7 h8 h9
  · simp at hx; rcases hx with rfl | rfl <;> decide
  · simp at hx; rcases hx with rfl | rfl <;> decide
  · simp at hx; rcases hx with rfl | rfl <;> decide
  · simp at hx; rcases hx with rfl | rfl <;> decide
  · simp at hx; rcases hx with rfl | rfl <;> decide
  · simp at hx; rcases hx with rfl | rfl <;> decide
  · simp at hx; rcases hx with rfl | rfl <;> decide
  · simp at hx; subst hx; exact h8
  · exact uEsc4_ascii hx
  · rcases List.mem_append.mp hx with h | h
    · exact uEsc4_ascii h
    · exact uEsc4_ascii h

theorem jescape_ascii {s : List Char} {x : Char} (hx : x ∈ jescape s) :
    32 ≤ x.toNat ∧ x.toNat ≤ 126 := by
  induction s with
  | nil => simp [jescape] at hx
  | cons c cs ih =>
      rw [jescape] at hx
      rcases List.mem_append.mp hx with h | h
      · exact escCh_ascii h
      · exact ih h

theorem intChars_ascii {i : Int} {x : Char} (hx : x ∈ intChars i) :
    32 ≤ x.toNat ∧ x.toNat ≤ 126 := by
  have hdig : ∀ y ∈ natChars i.natAbs, 32 ≤ y.toNat ∧ y.toNat ≤ 126 := by
    intro y hy
    have h := natChars_digits _ y hy
    simp only [isDig, Bool.and_eq_true, decide_eq_true_eq] at h
    omega
  rw [intChars] at hx
  split_ifs at hx
  · rcases List.mem_cons.mp hx with rfl | h
    · decide
    · exact hdig x h
  · exact hdig x hx

mutual

theorem jdump_ascii : ∀ (j : Json), ∀ x ∈ jdump j, 32 ≤ x.toNat ∧ x.toNat ≤ 126
  | .null => by intro x hx; simp [jdump] at hx; rcases hx with rfl | rfl | rfl | rfl <;> decide
  | .bool true => by
      intro x hx; simp [jdump] at hx; rcases hx with rfl | rfl | rfl | rfl <;> decide
  | .bool false => by
      intro x hx
      simp [jdump] at hx
      rcases hx with rfl | rfl | rfl | rfl | rfl <;> decide
  | .num i => by
      intro x hx
      simp only [jdump] at hx
      exact intChars_ascii hx
  | .str s => by
      intro x hx
      simp only [jdump, List.mem_cons, List.mem_append, List.not_mem_nil, or_false] at hx
      rcases hx with rfl | h | rfl
      · decide
      · exact jescape_ascii h
      · decide
  | .arr items => by
      intro x hx
      simp only [jdump, List.mem_cons, List.mem_append, List.not_mem_nil, or_false] at hx
      rcases hx with rfl | h | rfl
      · decide
      · exact jdumpItems_ascii items x h
      · decide
  | .obj fields => by
      intro x hx
      simp only [jdump, List.mem_cons, List.mem_append, List.not_mem_nil, or_false] at hx
      rcases hx with rfl | h | rfl
      · decide
      · exact jdumpFields_ascii fields x h
      · decide
termination_by j => sizeOf j

theorem jdumpItems_ascii : ∀ (xs : List Json), ∀ x ∈ jdumpItems xs,
    32 ≤ x.toNat ∧ x.toNat ≤ 126
  | [] => by intro x hx; simp [jdumpItems] at hx
  | y :: ys => by
      intro x hx
      rw [jdumpItems] at hx
      rcases List.mem_append.mp hx with h | h
      · exact jdump_ascii y x h
      · exact jdumpMoreItems_ascii ys x h
termination_by xs => sizeOf xs

theorem jdumpMoreItems_ascii : ∀ (xs : List Json), ∀ x ∈ jdumpMoreItems xs,
    32 ≤ x.toNat ∧ x.toNat ≤ 126
  | [] => by intro x hx; simp [jdumpMoreItems] at hx
  | y :: ys => by
      intro x hx
      rw [jdumpMoreItems] at hx
      rcases List.mem_cons.mp hx with rfl | hx2
      · decide
      · rcases List.mem_cons.mp hx2 with rfl | hx3
        · decide
        · rcases List.mem_append.mp hx3 with h | h
          · exact jdump_ascii y x h
          · exact jdumpMoreItems_ascii ys x h
termination_by xs => sizeOf xs

theorem jdumpFields_ascii : ∀ (fs : List (List Char × Json)), ∀ x ∈ jdumpFields fs,
    32 ≤ x.toNat ∧ x.toNat ≤ 126
  | [] => by intro x hx; simp [jdumpFields] at hx
  | (k, v) :: fs2 => by
      intro x hx
      rw [jdumpFields] at hx
      rcases List.mem_cons.mp hx with rfl | hx2
      · decide
      · rcases List.mem_append.mp hx2 with h | hx3
        · exact jescape_ascii h
        · rcases List.mem_cons.mp hx3 with rfl | hx4
          · decide
          · rcases List.mem_cons.mp hx4 with rfl | hx5
            · decide
            · rcases List.mem_cons.mp hx5 with rfl | hx6
              · decide
              · rcases List.mem_append.mp hx6 with h | h
                · exact jdump_ascii v x h
                · exact jdumpMoreFields_ascii fs2 x h
termination_by fs => sizeOf fs

theorem jdumpMoreFields_ascii : ∀ (fs : List (List Char × Json)), ∀ x ∈ jdumpMoreFields fs,
    32 ≤ x.toNat ∧ x.toNat ≤ 126
  | [] => by intro x hx; simp [jdumpMoreFields] at hx
  | (k, v) :: fs2 => by
      intro x hx
      rw [jdumpMoreFields] at hx
      rcases List.mem_cons.mp hx with rfl | hx1
      · decide
      · rcases List.mem_cons.mp hx1 with rfl | hx2
        · decide
        · rcases List.mem_cons.mp hx2 with rfl | hx3
          · decide
          · rcases List.mem_append.mp hx3 with h | hx4
            · exact jescape_ascii h
            · rcases List.mem_cons.mp hx4 with rfl | hx5
              · decide
              · rcases List.mem_cons.mp hx5 with rfl | hx6
                · decide
                · rcases List.mem_cons.mp hx6 with rfl | hx7
                  · decide
                  · rcases List.mem_append.mp hx7 with h | h
                    · exact jdump_ascii v x h
                    · exact jdumpMoreFields_ascii fs2 x h
termination_by fs => sizeOf fs

end

theorem jdump_no_newline (j : Json) : '\n' ∉ jdump j := by
  intro h
  have h2 := jdump_ascii j _ h
  revert h2
  decide


theorem splitLines_line {l : List Char} (hl : '\n' ∉ l) (r : List Char) :
    splitLines (l ++ '\n' :: r) = l :: splitLines r := by
  induction l with
  | nil => simp [splitLines]
  | cons c cs ih =>
      have hc : c ≠ '\n' := fun h => hl (h ▸ List.mem_cons_self ..)
      have ih2 := ih (fun h => hl (List.mem_cons_of_mem _ h))
      simp [splitLines, hc, ih2]

theorem appendAll_truthy : ∀ (recs : List Json) (file : List Char),
    (∀ r ∈ recs, jtruthy r = true) →
    appendAll recs file = file ++ joinRecs recs
  | [], file, _ => by simp [appendAll, joinRecs]
  | r :: rs, file, h => by
      have hr : jtruthy r = true := h r (List.mem_cons_self ..)
      have htail := appendAll_truthy rs (file ++ (jdump r ++ ['\n']))
        (fun x hx => h x (List.mem_cons_of_mem _ hx))
      simp only [appendAll, List.foldl_cons, save_stats, hr, if_true] at htail ⊢
      rw [htail, joinRecs]
      simp

theorem splitLines_joinRecs : ∀ recs : List Json,
    splitLines (joinRecs recs) = recs.map jdump ++ [[]]
  | [] => by simp [joinRecs, splitLines]
  | r :: rs => by
      rw [joinRecs, splitLines_line (jdump_no_newline r), splitLines_joinRecs rs]
      simp

theorem jdump_not_blank (j : Json) : blankLine (jdump j) = false := by
  obtain ⟨c, t, h, hws, _⟩ := jdump_head j
  simp [blankLine, h, hws]

theorem parseLinesE_map : ∀ recs : List Json,
    parseLinesE (recs.map jdump ++ [[]]) = .ok recs
  | [] => by simp [parseLinesE, blankLine]
  | r :: rs => by
      simp only [List.map_cons, List.cons_append, parseLinesE, jdump_not_blank r,
        Bool.false_eq_true, if_false, jloads_jdump r, List.append_eq, parseLinesE_map rs]

theorem parseLinesE_error : ∀ (ls : List (List Char)) (l : List Char), l ∈ ls →
    blankLine l = false → jloads l = none → parseLinesE ls = .error .corrupt := by
  intro ls
  induction ls with
  | nil => intro l h; exact absurd h (List.not_mem_nil _)
  | cons l0 ls ih =>
      intro l hmem hbl hbad
      rcases List.mem_cons.mp hmem with rfl | htail
      · simp [parseLinesE, hbl, hbad]
      · by_cases hb0 : blankLine l0 = true
        · simpa [parseLinesE, hb0] using ih l htail hbl hbad
        · have hrec := ih l htail hbl hbad
          cases h0 : jloads l0 with
          | none => simp [parseLinesE, hb0, h0]
          | some j => simp [parseLinesE, hb0, h0, hrec]

theorem parseLinesE_ok_shape : ∀ (ls : List (List Char)) (rs : List Json),
    parseLinesE ls = .ok rs →
    List.Forall₂ (fun l j => jloads l = some j)
      (ls.filter (fun l => !blankLine l)) rs := by
  intro ls
  induction ls with
  | nil =>
      intro rs h
      simp only [parseLinesE, Except.ok.injEq] at h
      subst h
      simp
  | cons l0 ls ih =>
      intro rs h
      by_cases hb0 : blankLine l0 = true
      · rw [parseLinesE, if_pos hb0] at h
        simpa [hb0] using ih rs h
      · rw [parseLinesE, if_neg hb0] at h
        cases h0 : jloads l0 with
        | none => rw [h0] at h; exact absurd h (by simp)
        | some j =>
            rw [h0] at h
            cases hrec : parseLinesE ls with
            | error e => rw [hrec] at h; exact absurd h (by simp)
            | ok js =>
                rw [hrec] at h
                simp only [Except.ok.injEq] at h
                subst h
                simp only [List.filter_cons, hb0, Bool.not_false, if_true]
                exact List.Forall₂.cons h0 (ih js hrec)


theorem nsGo_result (oracle : Nat → AttemptResult) (m : Nat) : ∀ (n s : Nat),
    (((nsGo oracle m (List.range' s n)).1 = none) ↔
      (∀ k, s ≤ k → k < s + n → oracle k ≠ .http 200)) ∧
    (∀ k, (nsGo oracle m (List.range' s n)).1 = some k →
      s ≤ k ∧ k < s + n ∧ oracle k = .http 200 ∧
        ∀ j, s ≤ j → j < k → oracle j ≠ .http 200) := by
  intro n
  induction n with
  | zero =>
      intro s
      constructor
      · constructor
        · intro _ k h1 h2; omega
        · intro _; simp [List.range', nsGo]
      · intro k h
        simp [List.range', nsGo] at h
  | succ n ih =>
      intro s
      rw [List.range'_succ]
      by_cases h200 : oracle s = .http 200
      · constructor
        · simp [nsGo, h200]
          exact ⟨s, by omega, by omega, h200⟩
        · intro k h
          simp [nsGo, h200] at h
          subst h
          exact ⟨le_refl s, by omega, h200, fun j h1 h2 => absurd h1 (by omega)⟩
      · have ihs := ih (s + 1)
        constructor
        · rw [nsGo, if_neg h200]
          constructor
          · intro h k h1 h2
            rcases Nat.eq_or_lt_of_le h1 with rfl | hlt
            · exact h200
            · have h3 : (nsGo oracle m (List.range' (s + 1) n)).1 = none := by
                split_ifs at h <;> simpa using h
              exact (ihs.1.mp h3) k (by omega) (by omega)
          · intro h
            have h3 : (nsGo oracle m (List.range' (s + 1) n)).1 = none :=
              ihs.1.mpr (fun k h1 h2 => h k (by omega) (by omega))
            split_ifs <;> simpa using h3
        · intro k h
          rw [nsGo, if_neg h200] at h
          have h3 : (nsGo oracle m (List.range' (s + 1) n)).1 = some k := by
            split_ifs at h <;> simpa using h
          obtain ⟨hk1, hk2, hk3, hk4⟩ := ihs.2 k h3
          refine ⟨by omega, by omega, hk3, fun j h1 h2 => ?_⟩
          rcases Nat.eq_or_lt_of_le h1 with rfl | hlt
          · exact h200
          · exact hk4 j (by omega) h2

theorem nsGo_trace_head (oracle : Nat → AttemptResult) (m : Nat) (n s : Nat) :
    (nsGo oracle m (List.range' s n)).2 = [] ∨
    ∃ t, (nsGo oracle m (List.range' s n)).2 = .attempt s :: t := by
  cases n with
  | zero => left; simp [List.range', nsGo]
  | succ n =>
      rw [List.range'_succ, nsGo]
      right
      by_cases h200 : oracle s = .http 200
      · exact ⟨[], by simp [h200]⟩
      · rw [if_neg h200]
        split_ifs with hk
      -- sleep branch
        · exact ⟨_, rfl⟩
        · exact ⟨_, rfl⟩

theorem nsGo_sleep_shape (oracle : Nat → AttemptResult) (m : Nat) : ∀ (n s : Nat)
    (pre : List TransportEv) (d j : Nat) (post : List TransportEv),
    (nsGo oracle m (List.range' s n)).2 = pre ++ .sleep d :: .attempt j :: post →
    1 ≤ j ∧ d = 2 ^ (j - 1)
  | 0, s, pre, d, j, post => by
      intro h
      simp [List.range', nsGo] at h
  | n + 1, s, pre, d, j, post => by
      intro h
      rw [List.range'_succ, nsGo] at h
      by_cases h200 : oracle s = .http 200
      · rw [if_pos h200] at h
        rcases pre with _ | ⟨a, pre2⟩ <;> simp_all
      · rw [if_neg h200] at h
        split_ifs at h with hk
        · rcases pre with _ | ⟨a, pre2⟩
          · simp at h
          · simp only [List.cons_append, List.cons.injEq] at h
            obtain ⟨rfl, h2⟩ := h
            rcases pre2 with _ | ⟨b, pre3⟩
            · simp only [List.nil_append, List.cons.injEq] at h2
              obtain ⟨hd, h3⟩ := h2
              rcases nsGo_trace_head oracle m n (s + 1) with hh | ⟨t, hh⟩
              · rw [hh] at h3; simp at h3
              · rw [hh] at h3
                simp only [List.cons.injEq] at h3
                obtain ⟨hj, _⟩ := h3
                injection hj with hj2
                injection hd with hd2
                subst hj2
                refine ⟨by omega, ?_⟩
                rw [← hd2]
                simp
            · simp only [List.cons_append, List.cons.injEq] at h2
              exact nsGo_sleep_shape oracle m n (s + 1) pre3 d j post h2.2
        · rcases pre with _ | ⟨a, pre2⟩
          · simp at h
          · simp only [List.cons_append, List.cons.injEq] at h
            exact nsGo_sleep_shape oracle m n (s + 1) pre2 d j post h.2

theorem nsGo_attempt_preceded (oracle : Nat → AttemptResult) (m : Nat) : ∀ (n s : Nat),
    s + n ≤ m → ∀ (pre : List TransportEv) (j : Nat) (post : List TransportEv),
    (nsGo oracle m (List.range' s n)).2 = pre ++ .attempt j :: post →
    (pre = [] ∧ j = s) ∨ (1 ≤ j ∧ ∃ pre2, pre = pre2 ++ [.sleep (2 ^ (j - 1))])
  | 0, s, hsm, pre, j, post => by
      intro h
      simp [List.range', nsGo] at h
  | n + 1, s, hsm, pre, j, post => by
      intro h
      rw [List.range'_succ, nsGo] at h
      by_cases h200 : oracle s = .http 200
      · rw [if_pos h200] at h
        rcases pre with _ | ⟨a, pre2⟩
        · simp at h
          exact Or.inl ⟨rfl, h.1.symm⟩
        · simp only [List.cons_append, List.cons.injEq] at h
          obtain ⟨rfl, h2⟩ := h
          rcases pre2 with _ | ⟨b, pre3⟩ <;> simp at h2
      · rw [if_neg h200] at h
        split_ifs at h with hk
        · rcases pre with _ | ⟨a, pre2⟩
          · simp only [List.nil_append, List.cons.injEq] at h
            refine Or.inl ⟨rfl, ?_⟩
            have h2 := h.1
            simp only [TransportEv.attempt.injEq] at h2
            omega
          · simp only [List.cons_append, List.cons.injEq] at h
            obtain ⟨rfl, h2⟩ := h
            rcases pre2 with _ | ⟨b, pre3⟩
            · simp only [List.nil_append, List.cons.injEq] at h2
              exact absurd h2.1 (by simp)
            · simp only [List.cons_append, List.cons.injEq] at h2
              obtain ⟨rfl, h3⟩ := h2
              rcases nsGo_attempt_preceded oracle m n (s + 1) (by omega) pre3 j post h3 with
                ⟨rfl, rfl⟩ | ⟨hj, pre4, rfl⟩
              · refine Or.inr ⟨by omega, [.attempt s], ?_⟩
                simp
              · refine Or.inr ⟨hj, .attempt s :: .sleep (2 ^ s) :: pre4, by simp⟩
        · have hn : n = 0 := by omega
          subst hn
          rcases pre with _ | ⟨a, pre2⟩
          · simp only [List.nil_append, List.cons.injEq] at h
            refine Or.inl ⟨rfl, ?_⟩
            have h2 := h.1
            simp only [TransportEv.attempt.injEq] at h2
            omega
          · simp only [List.cons_append, List.cons.injEq] at h
            obtain ⟨rfl, h2⟩ := h
            simp [List.range', nsGo] at h2



theorem tallyAdd_lookup : ∀ (acc : List (String × Nat)) (k m : String),
    countLookup (tallyAdd acc k) m
      = countLookup acc m + (if k = m then 1 else 0)
  | [], k, m => by
      by_cases h : k = m <;> simp [tallyAdd, countLookup, h]
  | (k0, n) :: rest, k, m => by
      by_cases h0 : k0 = k
      · subst h0
        by_cases hm : k0 = m <;> simp [tallyAdd, countLookup, hm]
      · rw [tallyAdd, if_neg h0]
        by_cases hm : k0 = m
        · subst hm
          have hk : ¬(k = k0) := fun h => h0 h.symm
          simp [countLookup, hk]
        · simp [countLookup, hm, tallyAdd_lookup rest k m]

theorem methodCounter_count (ds : List AnalyticsDecision) (m : String) :
    countLookup (methodCounter ds) m = (ds.map methodOf).count m := by
  suffices h : ∀ acc, countLookup (ds.foldl (fun acc d => tallyAdd acc (methodOf d)) acc) m
      = countLookup acc m + (ds.map methodOf).count m by
    simpa [methodCounter, countLookup] using h []
  induction ds with
  | nil => intro acc; simp
  | cons d ds ih =>
      intro acc
      rw [List.foldl_cons, ih, tallyAdd_lookup]
      rw [List.map_cons, List.count_cons]
      by_cases h : methodOf d = m
      · simp [h]
        omega
      · have h2 : ¬((m == methodOf d) = true) := by
          simp only [beq_iff_eq]
          exact fun hx => h hx.symm
        simp [h, h2]

theorem tallyAdd_keys : ∀ (acc : List (String × Nat)) (k : String),
    (tallyAdd acc k).map Prod.fst
      = if k ∈ acc.map Prod.fst then acc.map Prod.fst
        else acc.map Prod.fst ++ [k]
  | [], k => by simp [tallyAdd]
  | (k0, n) :: rest, k => by
      by_cases h0 : k0 = k
      · subst h0
        simp [tallyAdd]
      · have hne : ¬(k = k0) := fun h => h0 h.symm
        rw [tallyAdd, if_neg h0]
        simp only [List.map_cons, List.mem_cons, tallyAdd_keys rest k]
        by_cases hmem : k ∈ rest.map Prod.fst
        · simp [hmem, hne]
        · simp [hmem, hne]

theorem tallyAdd_nodup {acc : List (String × Nat)} (h : (acc.map Prod.fst).Nodup)
    (k : String) : ((tallyAdd acc k).map Prod.fst).Nodup := by
  rw [tallyAdd_keys]
  by_cases hmem : k ∈ acc.map Prod.fst
  · simpa [hmem] using h
  · rw [if_neg hmem]
    simp [List.nodup_append, h, hmem]

theorem methodCounter_nodup (ds : List AnalyticsDecision) :
    ((methodCounter ds).map Prod.fst).Nodup := by
  suffices h : ∀ acc : List (String × Nat), (acc.map Prod.fst).Nodup →
      (((ds.foldl (fun acc d => tallyAdd acc (methodOf d)) acc)).map Prod.fst).Nodup by
    exact h [] (by simp)
  induction ds with
  | nil => intro acc hacc; simpa using hacc
  | cons d ds ih =>
      intro acc hacc
      exact ih _ (tallyAdd_nodup hacc _)

theorem countLookup_of_mem : ∀ {acc : List (String × Nat)},
    (acc.map Prod.fst).Nodup → ∀ {m : String} {c : Nat}, (m, c) ∈ acc →
    countLookup acc m = c := by
  intro acc
  induction acc with
  | nil => intro _ m c h; exact absurd h (List.not_mem_nil _)
  | cons p rest ih =>
      obtain ⟨k0, n⟩ := p
      intro hnd m c hmem
      simp only [List.map_cons, List.nodup_cons] at hnd
      rcases List.mem_cons.mp hmem with heq | htail
      · obtain ⟨rfl, rfl⟩ := Prod.mk.injEq .. ▸ heq
        simp [countLookup]
      · have hmk : m ∈ rest.map Prod.fst := List.mem_map_of_mem _ htail
        have hne : k0 ≠ m := fun h => hnd.1 (h ▸ hmk)
        rw [countLookup, if_neg hne]
        exact ih hnd.2 htail

theorem countLookup_pos_mem : ∀ (acc : List (String × Nat)) (m : String),
    countLookup acc m ≠ 0 → ∃ c, (m, c) ∈ acc
  | [], m => by intro h; simp [countLookup] at h
  | (k0, n) :: rest, m => by
      intro h
      by_cases hk : k0 = m
      · subst hk
        exact ⟨n, List.mem_cons_self ..⟩
      · rw [countLookup, if_neg hk] at h
        obtain ⟨c, hc⟩ := countLookup_pos_mem rest m h
        exact ⟨c, List.mem_cons_of_mem _ hc⟩

theorem processIssue_shape (logR tm : Bool) (sub : String → String → Bool)
    (env : IssueEnv) :
    (processIssue logR tm sub env = ([], [])) ∨
    (∃ rec1, (processIssue logR tm sub env).1 = [rec1] ∧
      rec1.issueId = env.issueId ∧
      ((processIssue logR tm sub env).2 = [.logAppend rec1] ∨
        (processIssue logR tm sub env).2 = [.logAppend rec1,
          .submit rec1.issueId rec1.optionId (sub rec1.issueId rec1.optionId)])) := by
  rcases h : choose_option logR env.issue env.llm env.draw with ⟨oid, method, reasoning⟩
  cases oid with
  | none => left; simp [processIssue, h]
  | some o =>
      right
      refine ⟨mkDecisionRec env o method reasoning, ?_, rfl, ?_⟩
      · cases tm <;> simp [processIssue, h]
      · cases tm
        · exact Or.inr (by simp [processIssue, h, mkDecisionRec])
        · exact Or.inl (by simp [processIssue, h])

theorem processIssue_log_sub_independent (logR tm : Bool)
    (sub sub2 : String → String → Bool) (env : IssueEnv) :
    (processIssue logR tm sub env).1 = (processIssue logR tm sub2 env).1 := by
  rcases h : choose_option logR env.issue env.llm env.draw with ⟨oid, method, reasoning⟩
  cases oid with
  | none => simp [processIssue, h]
  | some o => cases tm <;> simp [processIssue, h]

theorem run_once_log_grows (logR tm : Bool) (sub : String → String → Bool) :
    ∀ (envs : List IssueEnv) (log0 : List DecisionRec),
    ∃ delta, (run_once logR tm sub envs log0).1 = log0 ++ delta
  | [], log0 => ⟨[], by simp [run_once]⟩
  | e :: es, log0 => by
      obtain ⟨delta, hd⟩ := run_once_log_grows logR tm sub es
        (log0 ++ (processIssue logR tm sub e).1)
      exact ⟨(processIssue logR tm sub e).1 ++ delta, by simp [run_once, hd]⟩

theorem run_once_sub_independent (logR tm : Bool)
    (sub sub2 : String → String → Bool) :
    ∀ (envs : List IssueEnv) (log0 : List DecisionRec),
    (run_once logR tm sub envs log0).1 = (run_once logR tm sub2 envs log0).1
  | [], log0 => by simp [run_once]
  | e :: es, log0 => by
      have h := processIssue_log_sub_independent logR tm sub sub2 e
      simp only [run_once]
      rw [h, run_once_sub_independent logR tm sub sub2 es]

theorem run_once_submit_after_log (logR tm : Bool) (sub : String → String → Bool) :
    ∀ (envs : List IssueEnv) (log0 : List DecisionRec)
      (pre : List CycleEv) (iid oid : String) (ok : Bool) (post : List CycleEv),
    (run_once logR tm sub envs log0).2 = pre ++ .submit iid oid ok :: post →
    ∃ rec1, CycleEv.logAppend rec1 ∈ pre ∧ rec1.issueId = iid ∧ rec1.optionId = oid
  | [], log0, pre, iid, oid, ok, post => by
      intro h
      simp [run_once] at h
  | e :: es, log0, pre, iid, oid, ok, post => by
      intro h
      simp only [run_once] at h
      rcases processIssue_shape logR tm sub e with hsh | ⟨rec1, hsh1, hshid, hsh2 | hsh2⟩
      · rw [hsh] at h
        simp only [List.nil_append] at h
        exact run_once_submit_after_log logR tm sub es _ pre iid oid ok post h
      · rw [hsh2] at h
        rcases pre with _ | ⟨a, pre2⟩
        · simp at h
        · simp only [List.cons_append, List.cons.injEq] at h
          obtain ⟨rfl, h2⟩ := h
          simp only [List.singleton_append, List.nil_append] at h2
          obtain ⟨rec2, hmem, hi, ho⟩ :=
            run_once_submit_after_log logR tm sub es _ pre2 iid oid ok post h2
          exact ⟨rec2, List.mem_cons_of_mem _ hmem, hi, ho⟩
      · rw [hsh2] at h
        rcases pre with _ | ⟨a, pre2⟩
        · simp at h
        · simp only [List.cons_append, List.cons.injEq] at h
          obtain ⟨rfl, h2⟩ := h
          rcases pre2 with _ | ⟨b, pre3⟩
          · simp only [List.nil_append, List.cons.injEq] at h2
            obtain ⟨hsub, _⟩ := h2
            injection hsub with hi ho hok
            exact ⟨rec1, List.mem_cons_self .., hi.symm ▸ rfl, ho.symm ▸ rfl⟩
          · simp only [List.cons_append, List.cons.injEq] at h2
            obtain ⟨rfl, h3⟩ := h2
            obtain ⟨rec2, hmem, hi, ho⟩ :=
              run_once_submit_after_log logR tm sub es _ pre3 iid oid ok post h3
            exact ⟨rec2, List.mem_cons_of_mem _ (List.mem_cons_of_mem _ hmem), hi, ho⟩

theorem ns_request_first_attempt (oracle : Nat → AttemptResult) (m : Nat)
    (h : 0 < m) : ∃ t, (ns_request oracle m).2 = .attempt 0 :: t := by
  obtain ⟨m2, rfl⟩ : ∃ m2, m = m2 + 1 := ⟨m - 1, by omega⟩
  rw [ns_request, List.range_eq_range']
  rcases nsGo_trace_head oracle (m2 + 1) (m2 + 1) 0 with hh | hh
  · exfalso
    rw [List.range'_succ, nsGo] at hh
    by_cases h200 : oracle 0 = .http 200
    · simp [h200] at hh
    · rw [if_neg h200] at hh
      split_ifs at hh
  · exact hh

/-- C1: choose_option satisfies its contract.  An issue whose option sequence
is empty yields `(none, "none", none)`; an issue with at least one option
always yields the id of one of that issue's own options with method "AI" or
"random".  The function is total over the modelled outcomes (every exception
path in the source is caught), so it never raises to the caller. -/
theorem choose_option_contract (logR : Bool) (issue : Issue) (llm : LLMOutcome)
    (draw : Nat) :
    (issue.options = [] →
      choose_option logR issue llm draw = (none, "none", none)) ∧
    (issue.options ≠ [] → ∃ opt ∈ issue.options,
      (choose_option logR issue llm draw).1 = some opt.id ∧
      ((choose_option logR issue llm draw).2.1 = "AI" ∨
        (choose_option logR issue llm draw).2.1 = "random")) := by
  constructor
  · intro h
    simp [choose_option, h]
  · intro h
    cases hopt : issue.options with
    | nil => exact absurd hopt h
    | cons o0 os =>
        by_cases hacc : ∃ p, llm = .reply 200 (some p) ∧ 1 ≤ p.optionNumber ∧
            p.optionNumber ≤ ((os.length + 1 : Nat) : Int)
        · obtain ⟨p, rfl, hr1, hr2⟩ := hacc
          have hidx : (p.optionNumber - 1).toNat < (o0 :: os).length := by
            simp only [List.length_cons]
            omega
          have hr2b : p.optionNumber ≤ (os.length : Int) + 1 := by push_cast at hr2; omega
          have hres : choose_option logR issue (.reply 200 (some p)) draw
              = (some ((o0 :: os).getD (p.optionNumber - 1).toNat o0).id, "AI",
                  if logR then p.reasoning else none) := by
            simp [choose_option, hopt, hr1, hr2b]
          have hmem : (o0 :: os).getD (p.optionNumber - 1).toNat o0 ∈ o0 :: os := by
            rw [List.getD_eq_get _ _ hidx]
            exact List.get_mem ..
          exact ⟨_, hmem, by rw [hres], Or.inl (by rw [hres])⟩
        · have hres : choose_option logR issue llm draw
              = (some ((o0 :: os).get ⟨draw % (os.length + 1),
                  Nat.mod_lt _ (Nat.succ_pos _)⟩).id, "random", none) := by
            rcases llm with _ | ⟨st, pl⟩
            · simp [choose_option, hopt]
            · by_cases hst : st = 200
              · subst hst
                cases pl with
                | none => simp [choose_option, hopt]
                | some p =>
                    have hr : ¬(1 ≤ p.optionNumber ∧
                        p.optionNumber ≤ ((os.length + 1 : Nat) : Int)) :=
                      fun hcon => hacc ⟨p, rfl, hcon.1, hcon.2⟩
                    push_cast at hr
                    simp [choose_option, hopt, hr]
              · simp [choose_option, hopt, hst]
          exact ⟨_, List.get_mem .., by rw [hres], Or.inr (by rw [hres])⟩

/-- C1 witness: on a two-option issue with the language model unreachable the
contract yields a valid option id; on an optionless issue it yields
`(none, "none", none)`. -/
theorem choose_option_contract_witness :
    (choose_option false ⟨"t", "x", []⟩ .reqFail 0 = (none, "none", none)) ∧
    (∃ opt ∈ (⟨"t", "x", [⟨"o1", "a"⟩, ⟨"o2", "b"⟩]⟩ : Issue).options,
      (choose_option false ⟨"t", "x", [⟨"o1", "a"⟩, ⟨"o2", "b"⟩]⟩ .reqFail 0).1
        = some opt.id ∧
      ((choose_option false ⟨"t", "x", [⟨"o1", "a"⟩, ⟨"o2", "b"⟩]⟩ .reqFail 0).2.1
          = "AI" ∨
        (choose_option false ⟨"t", "x", [⟨"o1", "a"⟩, ⟨"o2", "b"⟩]⟩ .reqFail 0).2.1
          = "random")) :=
  ⟨(choose_option_contract false ⟨"t", "x", []⟩ .reqFail 0).1 rfl,
    (choose_option_contract false ⟨"t", "x", [⟨"o1", "a"⟩, ⟨"o2", "b"⟩]⟩ .reqFail 0).2
      (by decide)⟩

/-- C2: in choose_option a language-model response is accepted exactly when
the HTTP call succeeded with status 200, the body parsed to the constrained
schema, and `option_number` lies in `[1, len(options)]`; acceptance returns
the id of the option at that 1-indexed position with method "AI" (reasoning
kept only under the reasoning flag); every violation - a raised request
exception, a non-200 status, an unparsable payload, or an out-of-range index
- yields the id of the option selected by the random draw with method
"random" and no reasoning, with no error surfaced (the function is total). -/
theorem choose_option_validation (logR : Bool) (issue : Issue) (llm : LLMOutcome)
    (draw : Nat) (hne : issue.options ≠ []) :
    (∀ p, llm = .reply 200 (some p) →
      1 ≤ p.optionNumber → p.optionNumber ≤ (issue.options.length : Int) →
      ∃ opt, issue.options.get? (p.optionNumber - 1).toNat = some opt ∧
        choose_option logR issue llm draw
          = (some opt.id, "AI", if logR then p.reasoning else none)) ∧
    ((∀ p, llm = .reply 200 (some p) →
        ¬(1 ≤ p.optionNumber ∧ p.optionNumber ≤ (issue.options.length : Int))) →
      ∃ opt, issue.options.get? (draw % issue.options.length) = some opt ∧
        choose_option logR issue llm draw = (some opt.id, "random", none)) := by
  cases hopt : issue.options with
  | nil => exact absurd hopt hne
  | cons o0 os =>
      constructor
      · intro p hllm h1 h2
        subst hllm
        have h2b : p.optionNumber ≤ (os.length : Int) + 1 := by
          simp only [List.length_cons] at h2; push_cast at h2; omega
        have hidx : (p.optionNumber - 1).toNat < (o0 :: os).length := by
          simp only [List.length_cons]
          omega
        refine ⟨(o0 :: os).get ⟨(p.optionNumber - 1).toNat, hidx⟩,
          List.get?_eq_get hidx, ?_⟩
        have hgd : (o0 :: os).getD (p.optionNumber - 1).toNat o0
            = (o0 :: os).get ⟨(p.optionNumber - 1).toNat, hidx⟩ :=
          List.getD_eq_get _ _ hidx
        rw [← hgd]
        simp [choose_option, hopt, h1, h2b]
      · intro hvio
        have hidx : draw % (o0 :: os).length < (o0 :: os).length :=
          Nat.mod_lt _ (Nat.succ_pos _)
        refine ⟨(o0 :: os).get ⟨draw % (o0 :: os).length, hidx⟩,
          List.get?_eq_get hidx, ?_⟩
        rcases llm with _ | ⟨st, pl⟩
        · simp [choose_option, hopt]
        · by_cases hst : st = 200
          · subst hst
            cases pl with
            | none => simp [choose_option, hopt]
            | some p =>
                have hr := hvio p rfl
                simp only [List.length_cons] at hr
                push_cast at hr
                simp [choose_option, hopt, hr]
          · simp [choose_option, hopt, hst]

/-- C2 witness: for a two-option issue, an out-of-range `option_number` of 99
falls back to the random draw's option id with method "random" and no
reasoning. -/
theorem choose_option_validation_witness :
    ∃ opt, (⟨"t", "x", [⟨"o1", "a"⟩, ⟨"o2", "b"⟩]⟩ : Issue).options.get? (1 % 2)
        = some opt ∧
      choose_option false ⟨"t", "x", [⟨"o1", "a"⟩, ⟨"o2", "b"⟩]⟩
          (.reply 200 (some ⟨99, none⟩)) 1 = (some opt.id, "random", none) := by
  have h := (choose_option_validation false ⟨"t", "x", [⟨"o1", "a"⟩, ⟨"o2", "b"⟩]⟩
    (.reply 200 (some ⟨99, none⟩)) 1 (by decide)).2
  have hvio : ∀ p : LLMPayload,
      LLMOutcome.reply 200 (some ⟨99, none⟩) = .reply 200 (some p) →
      ¬(1 ≤ p.optionNumber ∧ p.optionNumber ≤
        (((⟨"t", "x", [⟨"o1", "a"⟩, ⟨"o2", "b"⟩]⟩ : Issue).options.length : Nat) : Int)) := by
    intro p hp
    injection hp with hst hpl
    injection hpl with h3
    subst h3
    decide
  exact h hvio

/-- C3 (amended): ns_request retries up to the configured attempt budget on
network failure or non-200 status, and the loop is total - exceptions are
caught, so nothing propagates.  A response is returned precisely when some
attempt in the budget yields HTTP status exactly 200 (the code tests
`status_code == 200`, not membership in the 2xx class), and the returned
response is that of the earliest such attempt; on exhaustion the result is
the bare failure value `none`, which carries no distinction between a
network error and an HTTP error status. -/
theorem ns_request_contract (oracle : Nat → AttemptResult) (m : Nat) :
    ((ns_request oracle m).1 = none ↔ ∀ k, k < m → oracle k ≠ .http 200) ∧
    (∀ k, (ns_request oracle m).1 = some k →
      k < m ∧ oracle k = .http 200 ∧ ∀ j, j < k → oracle j ≠ .http 200) := by
  have h := nsGo_result oracle m m 0
  rw [← List.range_eq_range'] at h
  constructor
  · rw [ns_request]
    constructor
    · intro hn k hk
      exact h.1.mp hn k (Nat.zero_le k) (by omega)
    · intro ha
      exact h.1.mpr (fun k _ hk => ha k (by omega))
  · intro k hk
    obtain ⟨h1, h2, h3, h4⟩ := h.2 k hk
    exact ⟨by omega, h3, fun j hj => h4 j (Nat.zero_le j) hj⟩

/-- C3 witness: an oracle failing with HTTP 500 on attempts 0 and 1 and
succeeding with 200 on attempt 2 makes ns_request return attempt 2's
response within the default budget of 3. -/
theorem ns_request_contract_witness :
    (ns_request (fun k => if k = 2 then .http 200 else .http 500) 3).1 = some 2 ∧
      2 < 3 ∧ (if 2 = 2 then AttemptResult.http 200 else .http 500) = .http 200 ∧
      ∀ j, j < 2 → (if j = 2 then AttemptResult.http 200 else .http 500) ≠ .http 200 := by
  refine ⟨by decide, ?_⟩
  exact (ns_request_contract (fun k => if k = 2 then .http 200 else .http 500) 3).2
    2 (by decide)

/-- C3 counterexample: a constant HTTP 204 oracle - a 2xx status - yields no
response from ns_request, refuting the claim that any 2xx response within
the budget is returned; and exhaustion under a network-error oracle and
under an HTTP-500 oracle produce the very same result value, so the failure
carries no NetworkError/HttpError distinction. -/
theorem ns_request_contract_cex :
    (200 ≤ 204 ∧ 204 < 300) ∧
    (ns_request (fun _ => .http 204) 3).1 = none ∧
    (ns_request (fun _ => .netFail) 3).1 = (ns_request (fun _ => .http 500) 3).1 := by
  decide

/-- C4 (amended): in ns_request's retry loop the sleep is executed after a
failed attempt (when `attempt < MAX_RETRIES - 1`) with duration `2 ** attempt`,
so the delay that immediately precedes attempt j (0-indexed) is 2^(j-1)
seconds for every j ≥ 1, and no delay at all precedes attempt 0: every sleep
event immediately followed by attempt j in the trace has duration 2^(j-1),
and every attempt event is either the first event of the trace (attempt 0)
or immediately preceded by a sleep of 2^(j-1) seconds. -/
theorem ns_request_backoff (oracle : Nat → AttemptResult) (m : Nat)
    (pre : List TransportEv) (d j : Nat) (post : List TransportEv) :
    ((ns_request oracle m).2 = pre ++ .sleep d :: .attempt j :: post →
      1 ≤ j ∧ d = 2 ^ (j - 1)) ∧
    ((ns_request oracle m).2 = pre ++ .attempt j :: post →
      (pre = [] ∧ j = 0) ∨ (1 ≤ j ∧ ∃ pre2, pre = pre2 ++ [.sleep (2 ^ (j - 1))])) := by
  constructor
  · intro h
    rw [ns_request, List.range_eq_range'] at h
    exact nsGo_sleep_shape oracle m m 0 pre d j post h
  · intro h
    rw [ns_request, List.range_eq_range'] at h
    exact nsGo_attempt_preceded oracle m m 0 (by omega) pre j post h

/-- C4 witness: under an oracle that always fails, the budget-3 trace is
attempt 0, sleep 1, attempt 1, sleep 2, attempt 2; instantiating the theorem
at the sleep preceding attempt 1 yields duration 2^(1-1) = 1. -/
theorem ns_request_backoff_witness :
    1 ≤ 1 ∧ 1 = 2 ^ (1 - 1) := by
  refine (ns_request_backoff (fun _ => .netFail) 3
    [.attempt 0] 1 1 [.sleep 2, .attempt 2]).1 ?_
  decide

/-- C4 counterexample: with the always-failing oracle and the default budget
of 3, the delay before attempt 1 is 1 second, not 2^1 = 2 seconds as the
claim's formula "delay before attempt k is 2^k" would require. -/
theorem ns_request_backoff_cex :
    (ns_request (fun _ => .netFail) 3).2
        = [.attempt 0, .sleep 1, .attempt 1, .sleep 2, .attempt 2] ∧
      (1 : Nat) ≠ 2 ^ 1 := by
  decide

/-- C5: serializing any record to its storage line (`json.dumps`) and
deserializing that line (`json.loads`) yields the record back field for
field; and a sequence of successful `save_stats` appends starting from an
empty log leaves a file from which `load_all_stats` returns exactly those
records in call order (a save succeeds when the record is truthy, the
`if stats:` guard). -/
theorem storage_round_trip :
    (∀ j : Json, jloads (jdump j) = some j) ∧
    (∀ recs : List Json, (∀ r ∈ recs, jtruthy r = true) →
      load_all_stats (some (appendAll recs [])) = .ok recs) := by
  constructor
  · exact jloads_jdump
  · intro recs h
    rw [appendAll_truthy recs [] h, List.nil_append, load_all_stats,
      splitLines_joinRecs]
    exact parseLinesE_map recs

/-- C5 witness: two concrete truthy records appended to an empty log are
loaded back in order, and a concrete record round-trips through the codec. -/
theorem storage_round_trip_witness :
    jloads (jdump (.num 5)) = some (.num 5) ∧
    load_all_stats (some (appendAll [.num 5, .str ['h', 'i']] []))
      = .ok [.num 5, .str ['h', 'i']] :=
  ⟨storage_round_trip.1 (.num 5),
   storage_round_trip.2 [.num 5, .str ['h', 'i']] (by decide)⟩

/-- C6: the readers process every line of the log, skip blank lines, and
deserialize each remaining line independently (a successful load pairs the
non-blank lines one-to-one, in order, with the returned records); and any
log containing a non-blank line that fails to deserialize makes both
load_all_stats and load_decisions surface the fatal read fault to the
caller instead of skipping the line. -/
theorem load_surfaces_corruption :
    (∀ (content : List Char) (rs : List Json),
      load_all_stats (some content) = .ok rs →
      List.Forall₂ (fun l j => jloads l = some j)
        ((splitLines content).filter (fun l => !blankLine l)) rs) ∧
    (∀ (content l : List Char), l ∈ splitLines content →
      blankLine l = false → jloads l = none →
      load_all_stats (some content) = .error .corrupt ∧
      load_decisions (some content) = .error .corrupt) := by
  constructor
  · intro content rs h
    exact parseLinesE_ok_shape (splitLines content) rs h
  · intro content l hmem hbl hbad
    have h := parseLinesE_error (splitLines content) l hmem hbl hbad
    exact ⟨h, h⟩

/-- C6 witness: the one-line log "xyz" is non-blank and unparsable, so both
readers report the fatal corruption fault on it. -/
theorem load_surfaces_corruption_witness :
    load_all_stats (some ['x', 'y', 'z']) = .error .corrupt ∧
    load_decisions (some ['x', 'y', 'z']) = .error .corrupt :=
  load_surfaces_corruption.2 ['x', 'y', 'z'] ['x', 'y', 'z']
    (by simp [splitLines]) (by decide) (by rfl)

/-- C7: in every decision cycle, each issue whose chosen option is non-null
has its decision record appended to the log before any submission event for
it is issued (every submit event in the trace is preceded by the log append
of a record carrying that issue id and option id), the log only ever grows
(the final log is the initial log plus appended records), and the log
contents are identical whatever the submission outcomes are - a failed
submission neither removes, rewrites, nor rolls back the entry. -/
theorem decision_log_before_submit (logR tm : Bool)
    (sub sub2 : String → String → Bool) (envs : List IssueEnv)
    (log0 : List DecisionRec) :
    (∃ delta, (run_once logR tm sub envs log0).1 = log0 ++ delta) ∧
    (run_once logR tm sub envs log0).1 = (run_once logR tm sub2 envs log0).1 ∧
    (∀ (pre : List CycleEv) (iid oid : String) (ok : Bool) (post : List CycleEv),
      (run_once logR tm sub envs log0).2 = pre ++ .submit iid oid ok :: post →
      ∃ rec1, CycleEv.logAppend rec1 ∈ pre ∧
        rec1.issueId = iid ∧ rec1.optionId = oid) :=
  ⟨run_once_log_grows logR tm sub envs log0,
   run_once_sub_independent logR tm sub sub2 envs log0,
   fun pre iid oid ok post h =>
     run_once_submit_after_log logR tm sub envs log0 pre iid oid ok post h⟩

/-- C7 witness: a one-issue cycle whose submission fails still shows the log
append of that issue's record before the submit event in the trace. -/
theorem decision_log_before_submit_witness :
    ∃ rec1, CycleEv.logAppend rec1 ∈
        ([.logAppend ⟨0, "i1", "t", "x", "o1", "a", "random", none⟩] :
          List CycleEv) ∧
      rec1.issueId = "i1" ∧ rec1.optionId = "o1" :=
  (decision_log_before_submit false false (fun _ _ => false) (fun _ _ => true)
      [⟨"i1", ⟨"t", "x", [⟨"o1", "a"⟩]⟩, .reqFail, 0, 0⟩] []).2.2
    [.logAppend ⟨0, "i1", "t", "x", "o1", "a", "random", none⟩]
    "i1" "o1" false [] (by decide)

/-- C8 (amended): every outbound request carries the User-Agent header - the
unconditional `headers["User-Agent"] = USER_AGENT` assignment maps the key to
the configured value whatever it is - but no startup validation of that value
exists: startup consists solely of the module-level environment reads and
always succeeds, and with the identification value absent the program still
proceeds to attempt requests (the retry loop issues attempt 0 whenever the
budget is positive), so the absence manifests per-request, not as a startup
configuration error. -/
theorem user_agent_no_startup_check (env : String → Option String)
    (headers : String → Option (Option String)) (oracle : Nat → AttemptResult)
    (m : Nat) (hm : 0 < m) :
    requestHeaders (load_config env) headers "User-Agent"
        = some (load_config env).userAgent ∧
    startup env = .ok (load_config env) ∧
    ∃ t, (ns_request oracle m).2 = .attempt 0 :: t :=
  ⟨by simp [requestHeaders], rfl, ns_request_first_attempt oracle m hm⟩

/-- C8 witness: with an empty environment (USER_AGENT unset) the header map
still carries the key with the absent value, startup succeeds, and the
default-budget transport issues its first attempt. -/
theorem user_agent_no_startup_check_witness :
    requestHeaders (load_config (fun _ => none)) (fun _ => none) "User-Agent"
        = some (load_config (fun _ => none)).userAgent ∧
    startup (fun _ => none) = .ok (load_config (fun _ => none)) ∧
    ∃ t, (ns_request (fun _ => .netFail) 3).2 = .attempt 0 :: t :=
  user_agent_no_startup_check (fun _ => none) (fun _ => none)
    (fun _ => .netFail) 3 (by decide)

/-- C8 counterexample: with USER_AGENT absent from the environment, startup
nevertheless succeeds and the transport layer attempts requests - there is
no startup-time configuration error, refuting the claim that the program
fails at startup before any request is attempted. -/
theorem user_agent_no_startup_check_cex :
    (load_config (fun _ => none)).userAgent = none ∧
    startup (fun _ => none) = .ok (load_config (fun _ => none)) ∧
    (ns_request (fun _ => .netFail) 3).2
      = [.attempt 0, .sleep 1, .attempt 1, .sleep 2, .attempt 2] :=
  ⟨rfl, rfl, by decide⟩

/-- C9: for every non-empty decision sequence, analyze_decisions produces a
report whose total is the sequence length; every per-method entry carries
that method's occurrence count and the percentage count/total*100; every
method occurring in the data has an entry; the date range is the min-to-max
timestamp difference converted to whole days; and the average decisions per
day is computed exactly when that range is strictly positive - otherwise it
is withheld, so no division by zero ever occurs. -/
theorem analyze_decisions_report (ds : List AnalyticsDecision) (hne : ds ≠ []) :
    ∃ r, analyze_decisions ds = some r ∧
      r.total = ds.length ∧
      (∀ m c pct, (m, c, pct) ∈ r.methodStats →
        c = (ds.map methodOf).count m ∧
        pct = ((c : Rat) / (ds.length : Rat)) * 100) ∧
      (∀ m, m ∈ ds.map methodOf → ∃ c pct, (m, c, pct) ∈ r.methodStats) ∧
      (∀ mn mx, (ds.filterMap (fun d => d.timestamp)).min? = some mn →
        (ds.filterMap (fun d => d.timestamp)).max? = some mx →
        r.dateRangeDays = some ((mx - mn) / 86400)) ∧
      (∀ dr, r.dateRangeDays = some dr →
        r.avgPerDay
          = if 0 < dr then some ((ds.length : Rat) / (dr : Rat)) else none) := by
  have hie : ds.isEmpty = false := by
    cases ds with
    | nil => exact absurd rfl hne
    | cons d ds => rfl
  rw [analyze_decisions, if_neg (by simp [hie])]
  refine ⟨_, rfl, rfl, ?_, ?_, ?_, ?_⟩
  · intro m c pct hmem
    simp only [List.mem_map, Prod.mk.injEq] at hmem
    obtain ⟨⟨k, n⟩, hp, h1, h2, h3⟩ := hmem
    subst h1
    subst h2
    have hc := countLookup_of_mem (methodCounter_nodup ds) hp
    rw [methodCounter_count] at hc
    exact ⟨hc.symm, h3.symm⟩
  · intro m hm
    have hcount : (ds.map methodOf).count m ≠ 0 := by
      have := List.count_pos_iff_mem.mpr hm
      omega
    rw [← methodCounter_count] at hcount
    obtain ⟨c, hc⟩ := countLookup_pos_mem _ m hcount
    exact ⟨c, _, List.mem_map_of_mem _ hc⟩
  · intro mn mx h1 h2
    simp only [h1, h2]
  · intro dr hdr
    cases hmin : (ds.filterMap (fun d => d.timestamp)).min? with
    | none =>
        simp only [hmin] at hdr
        cases hmax : (ds.filterMap (fun d => d.timestamp)).max? <;>
          simp [hmax] at hdr
    | some mn =>
        cases hmax : (ds.filterMap (fun d => d.timestamp)).max? with
        | none => simp only [hmin, hmax] at hdr; simp at hdr
        | some mx =>
            simp only [hmin, hmax, Option.some.injEq] at hdr ⊢
            subst hdr
            rfl

/-- C9 witness: for timestamps [100, 200, 300] all with method "AI", the
report exists with total 3, every entry carrying count/total*100, the "AI"
entry present, the date range (300-100)/86400 = 0 whole days, and the
average withheld because the range is not strictly positive. -/
theorem analyze_decisions_report_witness :
    ∃ r, analyze_decisions
        [⟨some 100, some "AI"⟩, ⟨some 200, some "AI"⟩, ⟨some 300, some "AI"⟩]
        = some r ∧
      r.total = ([⟨some 100, some "AI"⟩, ⟨some 200, some "AI"⟩,
        ⟨some 300, some "AI"⟩] : List AnalyticsDecision).length ∧
      (∀ m c pct, (m, c, pct) ∈ r.methodStats →
        c = (([⟨some 100, some "AI"⟩, ⟨some 200, some "AI"⟩,
            ⟨some 300, some "AI"⟩] : List AnalyticsDecision).map methodOf).count m ∧
        pct = ((c : Rat) / ((([⟨some 100, some "AI"⟩, ⟨some 200, some "AI"⟩,
            ⟨some 300, some "AI"⟩] : List AnalyticsDecision).length : Nat) : Rat)) * 100) ∧
      (∀ m, m ∈ ([⟨some 100, some "AI"⟩, ⟨some 200, some "AI"⟩,
          ⟨some 300, some "AI"⟩] : List AnalyticsDecision).map methodOf →
        ∃ c pct, (m, c, pct) ∈ r.methodStats) ∧
      (∀ mn mx,
        (([⟨some 100, some "AI"⟩, ⟨some 200, some "AI"⟩,
          ⟨some 300, some "AI"⟩] : List AnalyticsDecision).filterMap
            (fun d => d.timestamp)).min? = some mn →
        (([⟨some 100, some "AI"⟩, ⟨some 200, some "AI"⟩,
          ⟨some 300, some "AI"⟩] : List AnalyticsDecision).filterMap
            (fun d => d.timestamp)).max? = some mx →
        r.dateRangeDays = some ((mx - mn) / 86400)) ∧
      (∀ dr, r.dateRangeDays = some dr →
        r.avgPerDay = if 0 < dr then
          some (((([⟨some 100, some "AI"⟩, ⟨some 200, some "AI"⟩,
            ⟨some 300, some "AI"⟩] : List AnalyticsDecision).length : Nat) : Rat)
              / (dr : Rat))
          else none) :=
  analyze_decisions_report
    [⟨some 100, some "AI"⟩, ⟨some 200, some "AI"⟩, ⟨some 300, some "AI"⟩]
    (by simp)

/-- C10: a missing log file (the FileNotFoundError path, modelled as `none`)
makes both readers return the empty sequence instead of raising, and the
analytics entry point consequently reports that no decisions were found
rather than failing. -/
theorem missing_log_file_ok :
    load_decisions none = .ok [] ∧
    load_all_stats none = .ok [] ∧
    analytics_main none = .noDecisions :=
  ⟨rfl, rfl, rfl⟩
